import Mathlib

/-!
Shallow embedding of the AnthropicProxy protocol-translation core
(`src/converter.ts`, `src/errors.ts`, `src/streaming.ts`, `src/types.ts`)
and proofs of the frozen claims about it.

Conventions used throughout the embedding:
* JavaScript truthiness on optional strings is modelled by plain `String`
  fields where `""` plays the role of `undefined`/absent, exactly mirroring
  the `if (x)` checks of the source.
* JavaScript `Map`s are association lists (`List (key × value)`) with
  insertion-order-preserving update, and `Set`s are duplicate-free lists in
  insertion order, matching JS iteration semantics.
* `JSON.stringify` / `JSON.parse` are host-platform primitives, not
  repository code: `stringifyJson` is a concrete faithful serializer for the
  JSON value type used here, while parsing (only ever consumed opaquely by
  the converter) is passed in as a collaborator function.
-/

namespace AnthropicProxy

/-! ## String helpers (substring and case primitives used by the source) -/

/-- Does the character list `hay` start with `pat`? -/
def listStarts : List Char → List Char → Bool
  | _, [] => true
  | [], _ :: _ => false
  | a :: as, b :: bs => a == b && listStarts as bs

/-- Does `hay` contain `pat` as a contiguous sublist?  Models
JavaScript's `String.prototype.includes`. -/
def listHasSub (pat : List Char) : List Char → Bool
  | [] => listStarts [] pat
  | c :: t => listStarts (c :: t) pat || listHasSub pat t

/-- `hay.includes(pat)` on strings. -/
def strIncludes (hay pat : String) : Bool :=
  listHasSub pat.toList hay.toList

/-- `s.startsWith(pat)` on strings (structural implementation, evaluable by
the kernel). -/
def strStarts (s pat : String) : Bool :=
  listStarts s.toList pat.toList

/-- `s.toLowerCase()` (ASCII case folding, which is all the source relies on). -/
def lowerStr (s : String) : String :=
  String.mk (s.toList.map Char.toLower)

/-! ## Model selector (`selectTargetModel`, src/converter.ts lines 18-47)

The returned `Bool` records whether the "unknown client model, defaulting to
SMALL model" warning was sent to the logger collaborator. -/

/-- Embedding of `selectTargetModel`: returns the chosen backend model name
and whether the unrecognized-model warning was emitted. -/
def selectTargetModel (clientModelName bigModelName smallModelName : String) :
    String × Bool :=
  let clientModelLower := lowerStr clientModelName
  if strIncludes clientModelLower "opus" || strIncludes clientModelLower "sonnet" then
    (bigModelName, false)
  else if strIncludes clientModelLower "haiku" then
    (smallModelName, false)
  else
    (smallModelName, true)

/-- Claim C9: for every logical model name, the selector returns the big name
when the lowercased input contains "opus" or "sonnet", the small name when it
contains "haiku", and otherwise the small name together with a warning to the
observability collaborator; being a total function it never fails, and it
always returns one of the two configured names. -/
theorem selectTargetModel_policy (clientModelName bigModelName smallModelName : String) :
    (strIncludes (lowerStr clientModelName) "opus" = true ∨
        strIncludes (lowerStr clientModelName) "sonnet" = true →
      selectTargetModel clientModelName bigModelName smallModelName = (bigModelName, false)) ∧
    (strIncludes (lowerStr clientModelName) "opus" = false →
      strIncludes (lowerStr clientModelName) "sonnet" = false →
      strIncludes (lowerStr clientModelName) "haiku" = true →
      selectTargetModel clientModelName bigModelName smallModelName = (smallModelName, false)) ∧
    (strIncludes (lowerStr clientModelName) "opus" = false →
      strIncludes (lowerStr clientModelName) "sonnet" = false →
      strIncludes (lowerStr clientModelName) "haiku" = false →
      selectTargetModel clientModelName bigModelName smallModelName = (smallModelName, true)) ∧
    ((selectTargetModel clientModelName bigModelName smallModelName).1 = bigModelName ∨
      (selectTargetModel clientModelName bigModelName smallModelName).1 = smallModelName) := by
  refine ⟨?_, ?_, ?_, ?_⟩
  · intro h
    rcases h with h | h <;> simp [selectTargetModel, h]
  · intro h1 h2 h3
    simp [selectTargetModel, h1, h2, h3]
  · intro h1 h2 h3
    simp [selectTargetModel, h1, h2, h3]
  · by_cases h1 : strIncludes (lowerStr clientModelName) "opus" = true
    · left; simp [selectTargetModel, h1]
    · by_cases h2 : strIncludes (lowerStr clientModelName) "sonnet" = true
      · left; simp [selectTargetModel, h2]
      · by_cases h3 : strIncludes (lowerStr clientModelName) "haiku" = true
        · right
          simp only [Bool.not_eq_true] at h1 h2
          simp [selectTargetModel, h1, h2, h3]
        · right
          simp only [Bool.not_eq_true] at h1 h2 h3
          simp [selectTargetModel, h1, h2, h3]

/-- Witness for `selectTargetModel_policy` at concrete inputs: the
"claude-3-opus" name selects the big model, and an unknown name selects the
small model with a warning. -/
theorem selectTargetModel_policy_witness :
    selectTargetModel "claude-3-OPUS-20240229" "big-x" "small-y" = ("big-x", false) ∧
    selectTargetModel "gpt-4" "big-x" "small-y" = ("small-y", true) :=
  ⟨(selectTargetModel_policy "claude-3-OPUS-20240229" "big-x" "small-y").1
      (Or.inl (by decide)),
    (selectTargetModel_policy "gpt-4" "big-x" "small-y").2.2.1
      (by decide) (by decide) (by decide)⟩

/-! ## Error taxonomy mapper (`getAnthropicErrorDetailsFromException`,
src/errors.ts lines 48-89, and `STATUS_CODE_ERROR_MAP`, src/types.ts
lines 238-250)

The exception model captures the information the mapper inspects: whether the
value is an `APIError` (OpenAI SDK base class), its optional HTTP `status`,
which specific SDK subtype (if any) it is an instance of, and the `name` and
`message` fields every JS `Error` carries.  Provider-details extraction from
the body only adds an extra, independent return component and is not modelled
(no claim concerns it). -/

/-- The Anthropic error taxonomy (enum `AnthropicErrorType` of src/types.ts). -/
inductive AnthropicErrorType where
  | invalidRequest
  | authentication
  | permission
  | notFound
  | rateLimit
  | apiError
  | overloaded
  | requestTooLarge
deriving DecidableEq

/-- The specific OpenAI SDK exception subclasses the mapper tests with
`instanceof` (src/errors.ts lines 74-86). -/
inductive ExcSubtype where
  | authenticationError
  | rateLimitError
  | badRequestError
  | permissionDeniedError
  | notFoundError
  | internalServerError
deriving DecidableEq

/-- A backend exception as seen by the mapper. -/
structure BackendException where
  isAPIError : Bool
  status : Option Nat
  subtype : Option ExcSubtype
  name : String
  message : String
deriving DecidableEq

/-- `STATUS_CODE_ERROR_MAP` from src/types.ts, as an association list. -/
def STATUS_CODE_ERROR_MAP : List (Nat × AnthropicErrorType) :=
  [(400, .invalidRequest), (401, .authentication), (403, .permission),
   (404, .notFound), (413, .requestTooLarge), (422, .invalidRequest),
   (429, .rateLimit), (500, .apiError), (502, .apiError),
   (503, .overloaded), (504, .apiError)]

/-- JavaScript `String(exc)` on an `Error` value
(`Error.prototype.toString`). -/
def strOfException (exc : BackendException) : String :=
  if exc.message = "" then exc.name
  else if exc.name = "" then exc.message
  else exc.name ++ ": " ++ exc.message

/-- Embedding of `getAnthropicErrorDetailsFromException` (src/errors.ts):
returns `(errorType, errorMessage, statusCode)`.  `exc.status || 500` treats
both an absent and a zero status as 500 (JS falsiness). -/
def getAnthropicErrorDetailsFromException (exc : BackendException) :
    AnthropicErrorType × String × Nat :=
  let errorMessage := if exc.message ≠ "" then exc.message else strOfException exc
  let statusCode :=
    if exc.isAPIError then
      match exc.status with
      | some s => if s ≠ 0 then s else 500
      | none => 500
    else 500
  let errorType0 :=
    if exc.isAPIError then (STATUS_CODE_ERROR_MAP.lookup statusCode).getD .apiError
    else .apiError
  let errorType :=
    match exc.subtype with
    | some .authenticationError => AnthropicErrorType.authentication
    | some .rateLimitError => AnthropicErrorType.rateLimit
    | some .badRequestError => AnthropicErrorType.invalidRequest
    | some .permissionDeniedError => AnthropicErrorType.permission
    | some .notFoundError => AnthropicErrorType.notFound
    | some .internalServerError => AnthropicErrorType.apiError
    | none => errorType0
  (errorType, errorMessage, statusCode)

/-- The fixed status-to-kind table exactly as the claim words it
(400/422 → invalid_request, 401 → authentication, 403 → permission,
404 → not_found, 413 → request_too_large, 429 → rate_limit,
500/502/504 → api_error, 503 → overloaded, anything else → api_error). -/
def claimStatusKind (s : Nat) : AnthropicErrorType :=
  if s = 400 ∨ s = 422 then .invalidRequest
  else if s = 401 then .authentication
  else if s = 403 then .permission
  else if s = 404 then .notFound
  else if s = 413 then .requestTooLarge
  else if s = 429 then .rateLimit
  else if s = 500 ∨ s = 502 ∨ s = 504 then .apiError
  else if s = 503 then .overloaded
  else .apiError

/-- The kind each specific SDK exception subtype forces. -/
def claimSubtypeKind : ExcSubtype → AnthropicErrorType
  | .authenticationError => .authentication
  | .rateLimitError => .rateLimit
  | .badRequestError => .invalidRequest
  | .permissionDeniedError => .permission
  | .notFoundError => .notFound
  | .internalServerError => .apiError

/-- The status-table lookup of the source agrees with the claim's table. -/
theorem lookup_status_map_eq_claim (s : Nat) :
    (STATUS_CODE_ERROR_MAP.lookup s).getD .apiError = claimStatusKind s := by
  by_cases h400 : s = 400
  · subst h400; rfl
  by_cases h401 : s = 401
  · subst h401; rfl
  by_cases h403 : s = 403
  · subst h403; rfl
  by_cases h404 : s = 404
  · subst h404; rfl
  by_cases h413 : s = 413
  · subst h413; rfl
  by_cases h422 : s = 422
  · subst h422; rfl
  by_cases h429 : s = 429
  · subst h429; rfl
  by_cases h500 : s = 500
  · subst h500; rfl
  by_cases h502 : s = 502
  · subst h502; rfl
  by_cases h503 : s = 503
  · subst h503; rfl
  by_cases h504 : s = 504
  · subst h504; rfl
  have e400 : (s == 400) = false := by simp [h400]
  have e401 : (s == 401) = false := by simp [h401]
  have e403 : (s == 403) = false := by simp [h403]
  have e404 : (s == 404) = false := by simp [h404]
  have e413 : (s == 413) = false := by simp [h413]
  have e422 : (s == 422) = false := by simp [h422]
  have e429 : (s == 429) = false := by simp [h429]
  have e500 : (s == 500) = false := by simp [h500]
  have e502 : (s == 502) = false := by simp [h502]
  have e503 : (s == 503) = false := by simp [h503]
  have e504 : (s == 504) = false := by simp [h504]
  simp [STATUS_CODE_ERROR_MAP, List.lookup, claimStatusKind,
    h400, h401, h403, h404, h413, h422, h429, h500, h502, h503, h504,
    e400, e401, e403, e404, e413, e422, e429, e500, e502, e503, e504]

/-- Claim C6: for every backend exception carrying a (nonzero) HTTP status,
the error mapper returns the kind given by the fixed status table, except
that a specific SDK exception subtype overrides the status-derived kind; the
returned message is non-empty (every JS `Error` has a non-empty `name`), and
the mapper is a total function, so it never throws. -/
theorem error_mapper_kind (exc : BackendException) (s : Nat)
    (hapi : exc.isAPIError = true) (hstatus : exc.status = some s)
    (hs : s ≠ 0) (hname : exc.name ≠ "") :
    (getAnthropicErrorDetailsFromException exc).1 =
        (match exc.subtype with
         | some st => claimSubtypeKind st
         | none => claimStatusKind s) ∧
    (getAnthropicErrorDetailsFromException exc).2.2 = s ∧
    (getAnthropicErrorDetailsFromException exc).2.1 ≠ "" := by
  refine ⟨?_, ?_, ?_⟩
  · cases hsub : exc.subtype with
    | some st =>
      cases st <;>
        simp [getAnthropicErrorDetailsFromException, hsub, claimSubtypeKind]
    | none =>
      simp [getAnthropicErrorDetailsFromException, hsub, hapi, hstatus, hs,
        lookup_status_map_eq_claim]
  · simp [getAnthropicErrorDetailsFromException, hapi, hstatus, hs]
  · by_cases hmsg : exc.message = ""
    · simp [getAnthropicErrorDetailsFromException, hmsg, strOfException, hname]
    · simp [getAnthropicErrorDetailsFromException, hmsg]

/-- Witness for `error_mapper_kind`: a rate-limit exception with HTTP 429
maps to the rate-limit kind with status 429 and a non-empty message
(spec scenario D), and a plain 503 `APIError` maps to the overloaded kind. -/
theorem error_mapper_kind_witness :
    (getAnthropicErrorDetailsFromException
        ⟨true, some 429, some .rateLimitError, "RateLimitError", "Too many requests"⟩).1 =
      AnthropicErrorType.rateLimit ∧
    (getAnthropicErrorDetailsFromException
        ⟨true, some 503, none, "APIError", ""⟩).1 = AnthropicErrorType.overloaded := by
  constructor
  · exact (error_mapper_kind
      ⟨true, some 429, some .rateLimitError, "RateLimitError", "Too many requests"⟩
      429 (by decide) (by decide) (by decide) (by decide)).1
  · exact (error_mapper_kind ⟨true, some 503, none, "APIError", ""⟩
      503 (by decide) (by decide) (by decide) (by decide)).1

/-! ## JSON values and `JSON.stringify`

A standard JSON value type (numbers as integers; no claim involves
non-integral numerics).  `stringifyJson` is a concrete model of the host
platform's `JSON.stringify`, which never throws on these values. -/

/-- JSON values. -/
inductive JsonValue where
  | null
  | bool (b : Bool)
  | num (n : Int)
  | str (s : String)
  | arr (xs : List JsonValue)
  | obj (fields : List (String × JsonValue))

/-- Escape one character for a JSON string literal. -/
def escJsonChar (c : Char) : String :=
  if c = '"' then "\\\""
  else if c = '\\' then "\\\\"
  else if c = '\n' then "\\n"
  else String.singleton c

/-- Render a JSON string literal. -/
def escJsonString (s : String) : String :=
  "\"" ++ String.join (s.toList.map escJsonChar) ++ "\""

mutual

/-- `JSON.stringify` on a JSON value. -/
def stringifyJson : JsonValue → String
  | .null => "null"
  | .bool true => "true"
  | .bool false => "false"
  | .num n => toString n
  | .str s => escJsonString s
  | .arr xs => "[" ++ stringifyArr xs ++ "]"
  | .obj fs => "\x7b" ++ stringifyObj fs ++ "\x7d"

/-- Comma-separated rendering of a JSON array's elements. -/
def stringifyArr : List JsonValue → String
  | [] => ""
  | [x] => stringifyJson x
  | x :: y :: xs => stringifyJson x ++ "," ++ stringifyArr (y :: xs)

/-- Comma-separated rendering of a JSON object's fields. -/
def stringifyObj : List (String × JsonValue) → String
  | [] => ""
  | [(k, v)] => escJsonString k ++ ":" ++ stringifyJson v
  | (k, v) :: f :: fs =>
      escJsonString k ++ ":" ++ stringifyJson v ++ "," ++ stringifyObj (f :: fs)

end

/-- JavaScript `String(x)` coercion on a JSON value (`[object Object]` for
objects, comma-joined elements for arrays). -/
def jsString : JsonValue → String
  | .null => "null"
  | .bool true => "true"
  | .bool false => "false"
  | .num n => toString n
  | .str s => s
  | .arr xs => String.intercalate "," (xs.map jsStringShallow)
  | .obj _ => "[object Object]"
where
  /-- One level of JS array-element display (nested arrays flattened shallowly). -/
  jsStringShallow : JsonValue → String
    | .null => ""
    | .bool true => "true"
    | .bool false => "false"
    | .num n => toString n
    | .str s => s
    | .arr _ => ""
    | .obj _ => "[object Object]"

/-! ## Source-dialect (Anthropic) request data model (src/types.ts) -/

/-- Source message roles (`role ∈ {user, assistant}`). -/
inductive ARole where
  | user
  | assistant
deriving DecidableEq

/-- `tool_result` block content: a plain string or an array of JSON items. -/
inductive ToolResultContent where
  | str (s : String)
  | items (xs : List JsonValue)

/-- Anthropic content blocks (`ContentBlockSchema`). -/
inductive ContentBlock where
  | text (t : String)
  | image (sourceType mediaType dat : String)
  | toolUse (id name : String) (input : JsonValue)
  | toolResult (toolUseId : String) (content : ToolResultContent)

/-- Anthropic message content: a plain string or a block array. -/
inductive MessageContent where
  | str (s : String)
  | blocks (bs : List ContentBlock)

/-- An Anthropic message. -/
structure AMessage where
  role : ARole
  content : MessageContent

/-- A system-prompt block as the converter inspects it at runtime
(`block.type === 'text'`). -/
structure SysBlock where
  type : String
  text : String
deriving DecidableEq

/-- The `system` field: a plain string or an array of blocks. -/
inductive SystemInput where
  | str (s : String)
  | blocks (bs : List SysBlock)
deriving DecidableEq

/-! ## Target-dialect (OpenAI) message model -/

/-- Target message roles. -/
inductive ORole where
  | system
  | user
  | assistant
  | tool
deriving DecidableEq

/-- An OpenAI tool call (`{id, type: 'function', function: {name, arguments}}`;
the constant `type: 'function'` tag is implicit). -/
structure ToolCall where
  id : String
  name : String
  arguments : String
deriving DecidableEq

/-- An OpenAI chat message as produced by the request translator.
`content = none` models JSON `null`. -/
structure OMessage where
  role : ORole
  content : Option String
  toolCalls : Option (List ToolCall)
  toolCallId : Option String
deriving DecidableEq

/-- Warnings the converter reports to its logger collaborator. -/
inductive ConvWarn where
  | systemPromptAdjusted
  | imageFormatUnsupported
  | toolResultProcessing
  | messageFormatNormalized
deriving DecidableEq

/-- Parts accumulated for a user message with block-array content. -/
inductive UserPart where
  | textPart (t : String)
  | imagePart (url : String)
deriving DecidableEq

/-- Is this part an `image_url` part? -/
def UserPart.isImage : UserPart → Bool
  | .textPart _ => false
  | .imagePart _ => true

/-- The JSON encoding of a user part used by `JSON.stringify(parts)`. -/
def userPartToJson : UserPart → JsonValue
  | .textPart t => .obj [("type", .str "text"), ("text", .str t)]
  | .imagePart url => .obj [("type", .str "image_url"), ("image_url", .obj [("url", .str url)])]

/-- Map an Anthropic role onto the same-named OpenAI role. -/
def roleToO : ARole → ORole
  | .user => ORole.user
  | .assistant => ORole.assistant

/-! ## Request translator (`convertAnthropicToOpenAIMessages`,
src/converter.ts lines 49-246, and `serializeToolResultContentForOpenAI`,
lines 248-304) -/

/-- Is a tool-result item a `{type: 'text', text}` object?  Returns the
`text` field's value when so (src/converter.ts line 263). -/
def textItemValue (v : JsonValue) : Option JsonValue :=
  match v with
  | .obj fs =>
    match fs.lookup "type", fs.lookup "text" with
    | some (.str t), some tv => if t = "text" then some tv else none
    | _, _ => none
  | _ => none

/-- Embedding of `serializeToolResultContentForOpenAI`: returns the
serialized string and whether the content list contained a non-text item
(triggering the `TOOL_RESULT_PROCESSING` warning).  `JSON.stringify` cannot
fail on JSON values, so the catch branches of the source are dead here. -/
def serializeToolResultContentForOpenAI : ToolResultContent → String × Bool
  | .str s => (s, false)
  | .items xs =>
    let parts := xs.map fun item =>
      match textItemValue item with
      | some tv => (jsString tv, false)
      | none => (stringifyJson item, true)
    (String.intercalate "\n" (parts.map Prod.fst), parts.any Prod.snd)

/-- The per-message accumulators of the block loop
(src/converter.ts lines 91-93, plus tool messages pushed inside the loop and
warnings sent to the logger). -/
structure ConvAccum where
  pushed : List OMessage
  userParts : List UserPart
  asstTexts : List String
  asstCalls : List ToolCall
  warns : List ConvWarn
deriving DecidableEq

/-- The empty accumulator. -/
def emptyAccum : ConvAccum := ⟨[], [], [], [], []⟩

/-- One iteration of the block loop (src/converter.ts lines 100-184). -/
def processBlock (role : ARole) (acc : ConvAccum) (b : ContentBlock) : ConvAccum :=
  match b with
  | .text t =>
    match role with
    | .user => { acc with userParts := acc.userParts ++ [.textPart t] }
    | .assistant => { acc with asstTexts := acc.asstTexts ++ [t] }
  | .image sourceType mediaType dat =>
    match role with
    | .user =>
      if sourceType = "base64" then
        { acc with userParts := acc.userParts ++
            [.imagePart ("data:" ++ mediaType ++ ";base64," ++ dat)] }
      else { acc with warns := acc.warns ++ [.imageFormatUnsupported] }
    | .assistant => acc
  | .toolUse id name input =>
    match role with
    | .assistant =>
      { acc with asstCalls := acc.asstCalls ++ [⟨id, name, stringifyJson input⟩] }
    | .user => acc
  | .toolResult toolUseId c =>
    match role with
    | .user =>
      let sc := serializeToolResultContentForOpenAI c
      { acc with
          pushed := acc.pushed ++ [⟨.tool, some sc.1, none, some toolUseId⟩],
          warns := acc.warns ++ (if sc.2 then [.toolResultProcessing] else []) }
    | .assistant => acc

/-- JS truthiness of a nullable string (`lastMessage.content`). -/
def contentTruthy : Option String → Bool
  | none => false
  | some s => s ≠ ""

/-- Attaching accumulated assistant tool calls (src/converter.ts lines
205-226): push a separate null-content message, mutate the trailing
assistant message, or create a fresh one. -/
def attachToolCalls (msgs : List OMessage) (calls : List ToolCall) : List OMessage :=
  match msgs.getLast? with
  | none => msgs ++ [⟨.assistant, none, some calls, none⟩]
  | some last =>
    if last.role = .assistant ∧ contentTruthy last.content = true ∧ last.toolCalls = none then
      msgs ++ [⟨.assistant, none, some calls, none⟩]
    else if last.role = .assistant ∧ last.toolCalls = none then
      msgs.dropLast ++ [{ last with toolCalls := some calls, content := none }]
    else
      msgs ++ [⟨.assistant, none, some calls, none⟩]

/-- Conversion of one Anthropic message, appending to the accumulated
target-message list and warning list (src/converter.ts lines 81-229). -/
def convertOneMessage (st : List OMessage × List ConvWarn) (m : AMessage) :
    List OMessage × List ConvWarn :=
  let msgs := st.1
  let warns := st.2
  match m.content with
  | .str s => (msgs ++ [⟨roleToO m.role, some s, none, none⟩], warns)
  | .blocks [] => (msgs ++ [⟨roleToO m.role, some "", none, none⟩], warns)
  | .blocks bs =>
    let acc := bs.foldl (processBlock m.role) emptyAccum
    let msgs1 := msgs ++ acc.pushed
    let warns1 := warns ++ acc.warns
    match m.role with
    | .user =>
      if acc.userParts ≠ [] then
        if acc.userParts.any UserPart.isImage || acc.userParts.length > 1 then
          (msgs1 ++ [⟨.user,
              some (stringifyJson (.arr (acc.userParts.map userPartToJson))), none, none⟩],
            warns1)
        else
          match acc.userParts with
          | [.textPart t] => (msgs1 ++ [⟨.user, some t, none, none⟩], warns1)
          | _ => (msgs1, warns1)
      else (msgs1 ++ [⟨.user, some "", none, none⟩], warns1)
    | .assistant =>
      let assistantText := String.intercalate "\n" (acc.asstTexts.filter (fun t => t ≠ ""))
      let msgs2 :=
        if assistantText ≠ "" then msgs1 ++ [⟨.assistant, some assistantText, none, none⟩]
        else msgs1
      if acc.asstCalls ≠ [] then (attachToolCalls msgs2 acc.asstCalls, warns1)
      else (msgs2, warns1)

/-- The final normalization pass (src/converter.ts lines 232-243): an
assistant message with tool calls and non-null content gets `content := null`. -/
def normalizeOne (m : OMessage) : OMessage :=
  if m.role = .assistant ∧ m.toolCalls ≠ none ∧ m.content ≠ none then
    { m with content := none }
  else m

/-- The system-prompt text the converter computes (src/converter.ts lines
57-74): the plain string, or the text-typed blocks' texts joined by
newlines. -/
def systemTextOf : Option SystemInput → String
  | some (.str s) => s
  | some (.blocks bs) =>
    String.intercalate "\n" ((bs.filter (fun b => b.type = "text")).map SysBlock.text)
  | none => ""

/-- The warning the system-prompt handling emits when non-text blocks are
filtered out (src/converter.ts lines 66-72). -/
def sysWarnsOf : Option SystemInput → List ConvWarn
  | some (.blocks bs) =>
    if (bs.filter (fun b => b.type = "text")).length < bs.length then
      [.systemPromptAdjusted]
    else []
  | _ => []

/-- The warnings emitted by the final normalization pass. -/
def normWarnsOf (msgs : List OMessage) : List ConvWarn :=
  msgs.filterMap fun m =>
    if m.role = .assistant ∧ m.toolCalls ≠ none ∧ m.content ≠ none then
      some ConvWarn.messageFormatNormalized
    else none

/-- Embedding of `convertAnthropicToOpenAIMessages`: target messages plus the
warnings reported to the logger (modelled with a logger always present). -/
def convertAnthropicToOpenAIMessages (anthropicSystem : Option SystemInput)
    (anthropicMessages : List AMessage) : List OMessage × List ConvWarn :=
  let folded := anthropicMessages.foldl convertOneMessage
    (if systemTextOf anthropicSystem ≠ "" then
        [⟨.system, some (systemTextOf anthropicSystem), none, none⟩]
      else [],
      sysWarnsOf anthropicSystem)
  (folded.1.map normalizeOne, folded.2 ++ normWarnsOf folded.1)

/-! ## Non-streaming response translator
(`convertOpenAIToAnthropicResponse`, src/converter.ts lines 360-469) -/

/-- Anthropic stop reasons (`StopReasonType` of src/types.ts; `none` at use
sites models JSON `null`). -/
inductive StopReason where
  | endTurn
  | maxTokens
  | stopSequence
  | toolUse
  | error
deriving DecidableEq

/-- The finish-reason table shared by the response translator and the
streaming translator (src/converter.ts lines 369-375, src/streaming.ts
lines 37-43). -/
def stopReasonMap : List (String × StopReason) :=
  [("stop", .endTurn), ("length", .maxTokens), ("tool_calls", .toolUse),
   ("function_call", .toolUse), ("content_filter", .stopSequence)]

/-- JS `typeof v === 'object' && v !== null` on a parsed JSON value. -/
def isJsObjLike : JsonValue → Bool
  | .obj _ => true
  | .arr _ => true
  | _ => false

/-- The structured tool input reconstructed from an arguments string
(src/converter.ts lines 394-427).  `parseJson` is the host `JSON.parse`
collaborator; `none` models a parse exception. -/
def toolInputOf (parseJson : String → Option JsonValue) (args : String) : JsonValue :=
  match parseJson args with
  | some v => if isJsObjLike v then v else .obj [("value", v)]
  | none => .obj [("error_parsing_arguments", .str args)]

/-- The message of one OpenAI completion choice. -/
structure RespMessage where
  content : Option String
  toolCalls : Option (List ToolCall)

/-- An OpenAI `ChatCompletion` as the response translator reads it: id,
choices (message plus finish reason, `""` modelling a null finish reason),
and usage. -/
structure ChatCompletionIn where
  id : String
  choices : List (RespMessage × String)
  usage : Option (Nat × Nat)

/-- The Anthropic `MessagesResponse` the translator builds. -/
structure MessagesResponse where
  id : String
  model : String
  content : List ContentBlock
  stopReason : Option StopReason
  usage : Nat × Nat

/-- Embedding of `convertOpenAIToAnthropicResponse`. -/
def convertOpenAIToAnthropicResponse (parseJson : String → Option JsonValue)
    (openaiResponse : ChatCompletionIn) (originalAnthropicModelName requestId : String) :
    MessagesResponse :=
  let responseId :=
    if openaiResponse.id ≠ "" then "msg_" ++ openaiResponse.id
    else "msg_" ++ requestId ++ "_completed"
  let anthropicUsage :=
    match openaiResponse.usage with
    | some u => u
    | none => (0, 0)
  match openaiResponse.choices with
  | [] =>
    { id := responseId, model := originalAnthropicModelName,
      content := [.text ""], stopReason := none, usage := anthropicUsage }
  | (message, finishReason) :: _ =>
    let stop0 := (stopReasonMap.lookup finishReason).getD .endTurn
    let textBlocks : List ContentBlock :=
      match message.content with
      | some s => if s ≠ "" then [.text s] else []
      | none => []
    let toolBlocks : List ContentBlock :=
      match message.toolCalls with
      | some calls =>
        calls.map fun call => .toolUse call.id call.name (toolInputOf parseJson call.arguments)
      | none => []
    let stopReason :=
      match message.toolCalls with
      | some _ => if finishReason = "tool_calls" then StopReason.toolUse else stop0
      | none => stop0
    let content :=
      match textBlocks ++ toolBlocks with
      | [] => [ContentBlock.text ""]
      | l => l
    { id := responseId, model := originalAnthropicModelName,
      content := content, stopReason := some stopReason, usage := anthropicUsage }

/-! ## Claim C5: assistant messages with tool calls have null content -/

/-- Claim C5: every assistant-role message in the request translator's output
that carries a tool-call list has `content = null`; in particular an
assistant source message with both a text block and a tool-use block never
yields an assistant message carrying both non-null content and tool calls. -/
theorem assistant_tool_calls_null_content (anthropicSystem : Option SystemInput)
    (anthropicMessages : List AMessage) (m : OMessage)
    (hm : m ∈ (convertAnthropicToOpenAIMessages anthropicSystem anthropicMessages).1)
    (hrole : m.role = .assistant) (htc : m.toolCalls ≠ none) :
    m.content = none := by
  simp only [convertAnthropicToOpenAIMessages] at hm
  rcases List.mem_map.mp hm with ⟨x, _, hx⟩
  subst hx
  unfold normalizeOne
  split
  · rfl
  · rename_i hcond
    unfold normalizeOne at hrole htc
    rw [if_neg hcond] at hrole htc
    by_contra hcontent
    exact hcond ⟨hrole, htc, hcontent⟩

/-- Witness for `assistant_tool_calls_null_content`: an assistant source
message with a text block and a tool-use block (spec scenario E) yields a
trailing assistant message with tool calls whose content is null. -/
theorem assistant_tool_calls_null_content_witness :
    (⟨.assistant, none, some [⟨"t1", "get_weather", "\x7b\x7d"⟩], none⟩ : OMessage).content
      = none :=
  assistant_tool_calls_null_content none
    [⟨.assistant, .blocks [.text "hi", .toolUse "t1" "get_weather" (.obj [])]⟩]
    ⟨.assistant, none, some [⟨"t1", "get_weather", "\x7b\x7d"⟩], none⟩
    (by decide) (by decide) (by decide)

/-! ## Claim C7: system prompt handling -/

/-- Tool messages pushed by the block loop always have the `tool` role. -/
theorem foldl_pushed_tool (role : ARole) (bs : List ContentBlock) :
    ∀ acc : ConvAccum, (∀ x ∈ acc.pushed, x.role = ORole.tool) →
      ∀ x ∈ (bs.foldl (processBlock role) acc).pushed, x.role = ORole.tool := by
  induction bs with
  | nil => intro acc hacc; simpa using hacc
  | cons b rest ih =>
    intro acc hacc
    refine ih (processBlock role acc b) ?_
    intro x hx
    cases b with
    | text t => cases role <;> simp only [processBlock] at hx <;> exact hacc x hx
    | image s mt d =>
      cases role <;> simp only [processBlock] at hx
      · split at hx <;> exact hacc x hx
      · exact hacc x hx
    | toolUse id name input => cases role <;> simp only [processBlock] at hx <;> exact hacc x hx
    | toolResult tid c =>
      cases role <;> simp only [processBlock] at hx
      · rcases List.mem_append.mp hx with h | h
        · exact hacc x h
        · simp only [List.mem_singleton] at h; subst h; rfl
      · exact hacc x hx

/-- Warnings pushed by the block loop are image-format or tool-result
warnings only. -/
theorem foldl_warns_kinds (role : ARole) (bs : List ContentBlock) :
    ∀ acc : ConvAccum,
      (∀ w ∈ acc.warns, w = ConvWarn.imageFormatUnsupported ∨ w = ConvWarn.toolResultProcessing) →
      ∀ w ∈ (bs.foldl (processBlock role) acc).warns,
        w = ConvWarn.imageFormatUnsupported ∨ w = ConvWarn.toolResultProcessing := by
  induction bs with
  | nil => intro acc hacc; simpa using hacc
  | cons b rest ih =>
    intro acc hacc
    refine ih (processBlock role acc b) ?_
    intro w hw
    cases b with
    | text t => cases role <;> simp only [processBlock] at hw <;> exact hacc w hw
    | image s mt d =>
      cases role <;> simp only [processBlock] at hw
      · split at hw
        · exact hacc w hw
        · rcases List.mem_append.mp hw with h | h
          · exact hacc w h
          · simp only [List.mem_singleton] at h; subst h; left; rfl
      · exact hacc w hw
    | toolUse id name input => cases role <;> simp only [processBlock] at hw <;> exact hacc w hw
    | toolResult tid c =>
      cases role <;> simp only [processBlock] at hw
      · rcases List.mem_append.mp hw with h | h
        · exact hacc w h
        · split at h
          · simp only [List.mem_singleton] at h; subst h; right; rfl
          · simp at h
      · exact hacc w hw

/-- `attachToolCalls` preserves "no system-role message". -/
theorem attachToolCalls_no_system (msgs : List OMessage) (calls : List ToolCall)
    (h : ∀ x ∈ msgs, x.role ≠ ORole.system) :
    ∀ x ∈ attachToolCalls msgs calls, x.role ≠ ORole.system := by
  intro x hx
  cases hlast : msgs.getLast? with
  | none =>
    simp only [attachToolCalls, hlast] at hx
    rcases List.mem_append.mp hx with hh | hh
    · exact h x hh
    · simp only [List.mem_singleton] at hh; subst hh; simp
  | some last =>
    simp only [attachToolCalls, hlast] at hx
    by_cases hA : last.role = ORole.assistant ∧ contentTruthy last.content = true ∧
        last.toolCalls = none
    · rw [if_pos hA] at hx
      rcases List.mem_append.mp hx with hh | hh
      · exact h x hh
      · simp only [List.mem_singleton] at hh; subst hh; simp
    · rw [if_neg hA] at hx
      by_cases hB : last.role = ORole.assistant ∧ last.toolCalls = none
      · rw [if_pos hB] at hx
        rcases List.mem_append.mp hx with hh | hh
        · exact h x (List.dropLast_subset msgs hh)
        · simp only [List.mem_singleton] at hh; subst hh
          show last.role ≠ ORole.system
          rw [hB.1]
          intro hc; cases hc
      · rw [if_neg hB] at hx
        rcases List.mem_append.mp hx with hh | hh
        · exact h x hh
        · simp only [List.mem_singleton] at hh; subst hh; simp

/-- `convertOneMessage` preserves "no system-role message". -/
theorem convertOneMessage_no_system (st : List OMessage × List ConvWarn) (m : AMessage)
    (h : ∀ x ∈ st.1, x.role ≠ ORole.system) :
    ∀ x ∈ (convertOneMessage st m).1, x.role ≠ ORole.system := by
  intro x hx
  unfold convertOneMessage at hx
  rcases m with ⟨role, content⟩
  rcases content with s | bs
  · simp only at hx
    rcases List.mem_append.mp hx with hh | hh
    · exact h x hh
    · simp only [List.mem_singleton] at hh; subst hh; cases role <;> simp [roleToO]
  · match bs, hx with
    | [], hx =>
      simp only at hx
      rcases List.mem_append.mp hx with hh | hh
      · exact h x hh
      · simp only [List.mem_singleton] at hh; subst hh; cases role <;> simp [roleToO]
    | b :: bs, hx =>
      have hpushed : ∀ y ∈ ((b :: bs).foldl (processBlock role) emptyAccum).pushed,
          y.role = ORole.tool :=
        foldl_pushed_tool role (b :: bs) emptyAccum (by simp [emptyAccum])
      have hmsgs1 : ∀ y ∈ st.1 ++ ((b :: bs).foldl (processBlock role) emptyAccum).pushed,
          y.role ≠ ORole.system := by
        intro y hy
        rcases List.mem_append.mp hy with hh | hh
        · exact h y hh
        · rw [hpushed y hh]; intro hc; cases hc
      cases role with
      | user =>
        simp only at hx
        split at hx
        · split at hx
          · rcases List.mem_append.mp hx with hh | hh
            · exact hmsgs1 x hh
            · simp only [List.mem_singleton] at hh; subst hh; simp
          · split at hx
            · rcases List.mem_append.mp hx with hh | hh
              · exact hmsgs1 x hh
              · simp only [List.mem_singleton] at hh; subst hh; simp
            · exact hmsgs1 x hx
        · rcases List.mem_append.mp hx with hh | hh
          · exact hmsgs1 x hh
          · simp only [List.mem_singleton] at hh; subst hh; simp
      | assistant =>
        simp only at hx
        have hmsgs2 : ∀ y ∈ (if String.intercalate "\n"
              ((((b :: bs).foldl (processBlock ARole.assistant) emptyAccum).asstTexts).filter
                (fun t => t ≠ "")) ≠ "" then
              (st.1 ++ ((b :: bs).foldl (processBlock ARole.assistant) emptyAccum).pushed) ++
                [⟨ORole.assistant, some (String.intercalate "\n"
                  ((((b :: bs).foldl (processBlock ARole.assistant) emptyAccum).asstTexts).filter
                    (fun t => t ≠ ""))), none, none⟩]
            else st.1 ++ ((b :: bs).foldl (processBlock ARole.assistant) emptyAccum).pushed),
            y.role ≠ ORole.system := by
          intro y hy
          split at hy
          · rcases List.mem_append.mp hy with hh | hh
            · exact hmsgs1 y hh
            · simp only [List.mem_singleton] at hh; subst hh; simp
          · exact hmsgs1 y hy
        split at hx
        · exact attachToolCalls_no_system _ _ hmsgs2 x hx
        · exact hmsgs2 x hx

/-- `attachToolCalls` never touches a non-assistant head message, and
everything after the head stays non-system. -/
theorem attachToolCalls_head (a : OMessage) (t : List OMessage) (calls : List ToolCall)
    (ha : a.role ≠ ORole.assistant) (ht : ∀ x ∈ t, x.role ≠ ORole.system) :
    ∃ t2, attachToolCalls (a :: t) calls = a :: t2 ∧ ∀ x ∈ t2, x.role ≠ ORole.system := by
  cases t with
  | nil =>
    refine ⟨[⟨.assistant, none, some calls, none⟩], ?_, ?_⟩
    · have hA : ¬((a : OMessage).role = ORole.assistant ∧ contentTruthy a.content = true ∧
          a.toolCalls = none) := fun hc => ha hc.1
      have hB : ¬((a : OMessage).role = ORole.assistant ∧ a.toolCalls = none) :=
        fun hc => ha hc.1
      simp [attachToolCalls, hA, hB]
    · intro x hx; simp only [List.mem_singleton] at hx; subst hx; simp
  | cons b t' =>
    have hlast : (a :: b :: t').getLast? = (b :: t').getLast? := List.getLast?_cons_cons
    cases hl : (b :: t').getLast? with
    | none => simp at hl
    | some last =>
      by_cases hA : last.role = ORole.assistant ∧ contentTruthy last.content = true ∧
          last.toolCalls = none
      · refine ⟨(b :: t') ++ [⟨.assistant, none, some calls, none⟩], ?_, ?_⟩
        · simp only [attachToolCalls, hlast, hl, if_pos hA]
          simp
        · intro x hx
          rcases List.mem_append.mp hx with hh | hh
          · exact ht x hh
          · simp only [List.mem_singleton] at hh; subst hh; simp
      · by_cases hB : last.role = ORole.assistant ∧ last.toolCalls = none
        · refine ⟨(b :: t').dropLast ++
            [{ last with toolCalls := some calls, content := none }], ?_, ?_⟩
          · simp only [attachToolCalls, hlast, hl, if_neg hA, if_pos hB]
            rw [List.dropLast_cons₂]
            simp
          · intro x hx
            rcases List.mem_append.mp hx with hh | hh
            · exact ht x (List.dropLast_subset _ hh)
            · simp only [List.mem_singleton] at hh; subst hh
              show last.role ≠ ORole.system
              rw [hB.1]; intro hc; cases hc
        · refine ⟨(b :: t') ++ [⟨.assistant, none, some calls, none⟩], ?_, ?_⟩
          · simp only [attachToolCalls, hlast, hl, if_neg hA, if_neg hB]
            simp
          · intro x hx
            rcases List.mem_append.mp hx with hh | hh
            · exact ht x hh
            · simp only [List.mem_singleton] at hh; subst hh; simp

/-- Structural characterization of `convertOneMessage`: it either appends
fresh non-system messages, or appends fresh non-system messages and then
runs `attachToolCalls`. -/
theorem convertOneMessage_shape (st : List OMessage × List ConvWarn) (m : AMessage) :
    (∃ K, (convertOneMessage st m).1 = st.1 ++ K ∧ ∀ x ∈ K, x.role ≠ ORole.system) ∨
    (∃ K calls, (convertOneMessage st m).1 = attachToolCalls (st.1 ++ K) calls ∧
      ∀ x ∈ K, x.role ≠ ORole.system) := by
  rcases m with ⟨role, content⟩
  rcases content with s | bs
  · left
    refine ⟨[⟨roleToO role, some s, none, none⟩], rfl, ?_⟩
    intro x hx; simp only [List.mem_singleton] at hx; subst hx
    cases role <;> simp [roleToO]
  · match bs with
    | [] =>
      left
      refine ⟨[⟨roleToO role, some "", none, none⟩], rfl, ?_⟩
      intro x hx; simp only [List.mem_singleton] at hx; subst hx
      cases role <;> simp [roleToO]
    | b :: bs =>
      have hpushed : ∀ y ∈ ((b :: bs).foldl (processBlock role) emptyAccum).pushed,
          y.role ≠ ORole.system := by
        intro y hy
        rw [foldl_pushed_tool role (b :: bs) emptyAccum (by simp [emptyAccum]) y hy]
        intro hc; cases hc
      have hKone : ∀ (am : OMessage), am.role ≠ ORole.system →
          ∀ x ∈ ((b :: bs).foldl (processBlock role) emptyAccum).pushed ++ [am],
            x.role ≠ ORole.system := by
        intro am ham x hx
        rcases List.mem_append.mp hx with hh | hh
        · exact hpushed x hh
        · simp only [List.mem_singleton] at hh; subst hh; exact ham
      cases role with
      | user =>
        left
        simp only [convertOneMessage]
        split
        · split
          · refine ⟨((b :: bs).foldl (processBlock ARole.user) emptyAccum).pushed ++
              [⟨.user, some (stringifyJson (.arr
                (((b :: bs).foldl (processBlock ARole.user) emptyAccum).userParts.map
                  userPartToJson))), none, none⟩], ?_, hKone _ (by simp)⟩
            simp [List.append_assoc]
          · split
            · rename_i parts t hparts
              refine ⟨((b :: bs).foldl (processBlock ARole.user) emptyAccum).pushed ++
                [⟨.user, some t, none, none⟩], ?_, hKone _ (by simp)⟩
              simp [List.append_assoc]
            · exact ⟨((b :: bs).foldl (processBlock ARole.user) emptyAccum).pushed, rfl, hpushed⟩
        · refine ⟨((b :: bs).foldl (processBlock ARole.user) emptyAccum).pushed ++
            [⟨.user, some "", none, none⟩], ?_, hKone _ (by simp)⟩
          simp [List.append_assoc]
      | assistant =>
        simp only [convertOneMessage]
        split
        · split
          · right
            refine ⟨((b :: bs).foldl (processBlock ARole.assistant) emptyAccum).pushed ++
              [⟨.assistant, some (String.intercalate "\n"
                ((((b :: bs).foldl (processBlock ARole.assistant) emptyAccum).asstTexts).filter
                  (fun t => t ≠ ""))), none, none⟩],
              ((b :: bs).foldl (processBlock ARole.assistant) emptyAccum).asstCalls,
              ?_, hKone _ (by simp)⟩
            simp [List.append_assoc]
          · right
            exact ⟨((b :: bs).foldl (processBlock ARole.assistant) emptyAccum).pushed,
              ((b :: bs).foldl (processBlock ARole.assistant) emptyAccum).asstCalls,
              rfl, hpushed⟩
        · split
          · left
            refine ⟨((b :: bs).foldl (processBlock ARole.assistant) emptyAccum).pushed ++
              [⟨.assistant, some (String.intercalate "\n"
                ((((b :: bs).foldl (processBlock ARole.assistant) emptyAccum).asstTexts).filter
                  (fun t => t ≠ ""))), none, none⟩], ?_, hKone _ (by simp)⟩
            simp [List.append_assoc]
          · left
            exact ⟨((b :: bs).foldl (processBlock ARole.assistant) emptyAccum).pushed,
              rfl, hpushed⟩

/-- `convertOneMessage` never touches a non-assistant, non-system head
message, and everything after the head stays non-system. -/
theorem convertOneMessage_head (a : OMessage) (t : List OMessage) (w : List ConvWarn)
    (m : AMessage) (ha : a.role ≠ ORole.assistant)
    (ht : ∀ x ∈ t, x.role ≠ ORole.system) :
    ∃ t2, (convertOneMessage (a :: t, w) m).1 = a :: t2 ∧
      ∀ x ∈ t2, x.role ≠ ORole.system := by
  rcases convertOneMessage_shape (a :: t, w) m with ⟨K, hK, hKr⟩ | ⟨K, calls, hK, hKr⟩
  · refine ⟨t ++ K, ?_, ?_⟩
    · rw [hK]; rfl
    · intro x hx
      rcases List.mem_append.mp hx with hh | hh
      · exact ht x hh
      · exact hKr x hh
  · have htK : ∀ x ∈ t ++ K, x.role ≠ ORole.system := by
      intro x hx
      rcases List.mem_append.mp hx with hh | hh
      · exact ht x hh
      · exact hKr x hh
    rcases attachToolCalls_head a (t ++ K) calls ha htK with ⟨t2, ht2, ht2r⟩
    refine ⟨t2, ?_, ht2r⟩
    rw [hK]
    show attachToolCalls ((a :: t) ++ K) calls = a :: t2
    rw [List.cons_append]
    exact ht2

/-- Folding the message conversion keeps a non-assistant head untouched and
adds only non-system messages after it. -/
theorem foldl_convert_head (msgs : List AMessage) :
    ∀ (a : OMessage) (t : List OMessage) (w : List ConvWarn),
      a.role ≠ ORole.assistant → (∀ x ∈ t, x.role ≠ ORole.system) →
      ∃ t2, (msgs.foldl convertOneMessage (a :: t, w)).1 = a :: t2 ∧
        ∀ x ∈ t2, x.role ≠ ORole.system := by
  induction msgs with
  | nil => intro a t w _ ht; exact ⟨t, rfl, ht⟩
  | cons m rest ih =>
    intro a t w ha ht
    rcases convertOneMessage_head a t w m ha ht with ⟨t2, h1, h2⟩
    have heq : convertOneMessage (a :: t, w) m =
        (a :: t2, (convertOneMessage (a :: t, w) m).2) := Prod.ext h1 rfl
    rcases ih a t2 (convertOneMessage (a :: t, w) m).2 ha h2 with ⟨t3, h3, h4⟩
    refine ⟨t3, ?_, h4⟩
    show ((m :: rest).foldl convertOneMessage (a :: t, w)).1 = a :: t3
    rw [List.foldl_cons, heq]
    exact h3

/-- Folding the message conversion preserves "no system-role message". -/
theorem foldl_convert_no_system (msgs : List AMessage) :
    ∀ (ms : List OMessage) (w : List ConvWarn),
      (∀ x ∈ ms, x.role ≠ ORole.system) →
      ∀ x ∈ (msgs.foldl convertOneMessage (ms, w)).1, x.role ≠ ORole.system := by
  induction msgs with
  | nil => intro ms w h; exact h
  | cons m rest ih =>
    intro ms w h
    have h1 := convertOneMessage_no_system (ms, w) m h
    have heq : convertOneMessage (ms, w) m =
        ((convertOneMessage (ms, w) m).1, (convertOneMessage (ms, w) m).2) := rfl
    intro x hx
    rw [List.foldl_cons, heq] at hx
    exact ih _ _ h1 x hx

/-- One conversion step only appends image-format or tool-result warnings. -/
theorem convertOneMessage_warns (st : List OMessage × List ConvWarn) (m : AMessage) :
    ∃ extra, (convertOneMessage st m).2 = st.2 ++ extra ∧
      ∀ x ∈ extra, x = ConvWarn.imageFormatUnsupported ∨ x = ConvWarn.toolResultProcessing := by
  rcases m with ⟨role, content⟩
  rcases content with s | bs
  · exact ⟨[], by simp [convertOneMessage], by simp⟩
  · match bs with
    | [] => exact ⟨[], by simp [convertOneMessage], by simp⟩
    | b :: bs =>
      have hkinds := foldl_warns_kinds role (b :: bs) emptyAccum (by simp [emptyAccum])
      refine ⟨((b :: bs).foldl (processBlock role) emptyAccum).warns, ?_, hkinds⟩
      cases role with
      | user =>
        simp only [convertOneMessage]
        split
        · split
          · rfl
          · split
            · rfl
            · rfl
        · rfl
      | assistant =>
        simp only [convertOneMessage]
        split
        · split <;> rfl
        · split <;> rfl

/-- Folding the conversion only appends image-format or tool-result
warnings to the initial warning list. -/
theorem foldl_convert_warns (msgs : List AMessage) :
    ∀ (ms : List OMessage) (w : List ConvWarn),
      ∃ extra, (msgs.foldl convertOneMessage (ms, w)).2 = w ++ extra ∧
        ∀ x ∈ extra, x = ConvWarn.imageFormatUnsupported ∨ x = ConvWarn.toolResultProcessing := by
  induction msgs with
  | nil => intro ms w; exact ⟨[], by simp, by simp⟩
  | cons m rest ih =>
    intro ms w
    rcases convertOneMessage_warns (ms, w) m with ⟨e1, h1, h2⟩
    rcases ih (convertOneMessage (ms, w) m).1 (convertOneMessage (ms, w) m).2 with ⟨e2, h3, h4⟩
    refine ⟨e1 ++ e2, ?_, ?_⟩
    · show ((m :: rest).foldl convertOneMessage (ms, w)).2 = w ++ (e1 ++ e2)
      rw [List.foldl_cons]
      have heq : convertOneMessage (ms, w) m =
          ((convertOneMessage (ms, w) m).1, (convertOneMessage (ms, w) m).2) := rfl
      rw [heq] at h3 ⊢
      rw [h3, h1, List.append_assoc]
    · intro x hx
      rcases List.mem_append.mp hx with hh | hh
      · exact h2 x hh
      · exact h4 x hh

/-- Normalization warnings are format-normalized warnings only. -/
theorem normWarnsOf_kinds (msgs : List OMessage) :
    ∀ x ∈ normWarnsOf msgs, x = ConvWarn.messageFormatNormalized := by
  intro x hx
  rcases List.mem_filterMap.mp hx with ⟨m, _, hm⟩
  by_cases hc : m.role = OMessage.role m ∧ m.toolCalls ≠ none ∧ m.content ≠ none
  · split at hm
    · cases hm; rfl
    · cases hm
  · split at hm
    · cases hm; rfl
    · cases hm

/-- `normalizeOne` preserves the message role. -/
theorem normalizeOne_role (m : OMessage) : (normalizeOne m).role = m.role := by
  unfold normalizeOne
  split <;> rfl

/-- Claim C7 (amended): a plain-string system prompt whose text is non-empty
becomes a single leading system-role message with that string as content; an
array of blocks whose kept texts join (with newlines) to a non-empty string
becomes a single leading system-role message with the joined content; when
the resulting text is empty — in particular for the empty plain string — no
system-role message is emitted; and the system-prompt warning is emitted
exactly when some blocks of an array were filtered out for being non-text. -/
theorem system_prompt_translation (sys : SystemInput) (msgs : List AMessage) :
    (systemTextOf (some sys) ≠ "" →
      ∃ rest, (convertAnthropicToOpenAIMessages (some sys) msgs).1 =
          (⟨ORole.system, some (systemTextOf (some sys)), none, none⟩ : OMessage) :: rest ∧
        ∀ m ∈ rest, m.role ≠ ORole.system) ∧
    (systemTextOf (some sys) = "" →
      ∀ m ∈ (convertAnthropicToOpenAIMessages (some sys) msgs).1, m.role ≠ ORole.system) ∧
    (ConvWarn.systemPromptAdjusted ∈ (convertAnthropicToOpenAIMessages (some sys) msgs).2 ↔
      ∃ bs, sys = SystemInput.blocks bs ∧
        (bs.filter (fun b => b.type = "text")).length < bs.length) := by
  refine ⟨?_, ?_, ?_⟩
  · intro hne
    rcases foldl_convert_head msgs
        ⟨ORole.system, some (systemTextOf (some sys)), none, none⟩ [] (sysWarnsOf (some sys))
        (by intro hc; cases hc) (by simp) with ⟨t2, h1, h2⟩
    refine ⟨t2.map normalizeOne, ?_, ?_⟩
    · show (convertAnthropicToOpenAIMessages (some sys) msgs).1 = _
      simp only [convertAnthropicToOpenAIMessages]
      rw [if_pos hne, h1, List.map_cons]
      have : normalizeOne ⟨ORole.system, some (systemTextOf (some sys)), none, none⟩ =
          ⟨ORole.system, some (systemTextOf (some sys)), none, none⟩ := by
        unfold normalizeOne
        rw [if_neg]
        intro hc
        cases hc.1
      rw [this]
    · intro m hm
      rcases List.mem_map.mp hm with ⟨x, hx, hmx⟩
      rw [← hmx, normalizeOne_role]
      exact h2 x hx
  · intro hz m hm
    simp only [convertAnthropicToOpenAIMessages, hz] at hm
    simp only [ne_eq, not_true_eq_false, if_false] at hm
    rcases List.mem_map.mp hm with ⟨x, hx, hmx⟩
    rw [← hmx, normalizeOne_role]
    exact foldl_convert_no_system msgs [] (sysWarnsOf (some sys)) (by simp) x hx
  · constructor
    · intro hmem
      simp only [convertAnthropicToOpenAIMessages] at hmem
      rcases List.mem_append.mp hmem with hh | hh
      · rcases foldl_convert_warns msgs _ (sysWarnsOf (some sys)) with ⟨extra, he, hk⟩
        rw [he] at hh
        rcases List.mem_append.mp hh with h3 | h3
        · cases sys with
          | str s => simp [sysWarnsOf] at h3
          | blocks bs =>
            refine ⟨bs, rfl, ?_⟩
            simp only [sysWarnsOf] at h3
            split at h3
            · assumption
            · simp at h3
        · rcases hk _ h3 with h | h <;> cases h
      · have := normWarnsOf_kinds _ _ hh
        cases this
    · rintro ⟨bs, hbs, hlt⟩
      subst hbs
      simp only [convertAnthropicToOpenAIMessages]
      apply List.mem_append.mpr
      left
      rcases foldl_convert_warns msgs _ (sysWarnsOf (some (SystemInput.blocks bs))) with
        ⟨extra, he, _⟩
      rw [he]
      apply List.mem_append.mpr
      left
      simp [sysWarnsOf, hlt]

/-- Counterexample to claim C7 as stated: the empty plain-string system
prompt produces no target messages at all — in particular no leading
system-role message carrying `""` — because the source only pushes the
system message when the accumulated text is truthy (non-empty). -/
theorem system_prompt_empty_string_counterexample :
    (convertAnthropicToOpenAIMessages (some (SystemInput.str "")) []).1 = [] := rfl

/-- Witness for `system_prompt_translation`: a two-block system array with
one non-text block yields a single leading system message and the
filtered-blocks warning. -/
theorem system_prompt_translation_witness :
    (∃ rest, (convertAnthropicToOpenAIMessages
        (some (SystemInput.blocks [⟨"text", "Be helpful"⟩, ⟨"image", "zzz"⟩])) []).1 =
        (⟨ORole.system, some "Be helpful", none, none⟩ : OMessage) :: rest ∧
      ∀ m ∈ rest, m.role ≠ ORole.system) ∧
    ConvWarn.systemPromptAdjusted ∈ (convertAnthropicToOpenAIMessages
      (some (SystemInput.blocks [⟨"text", "Be helpful"⟩, ⟨"image", "zzz"⟩])) []).2 := by
  have h := system_prompt_translation
    (SystemInput.blocks [⟨"text", "Be helpful"⟩, ⟨"image", "zzz"⟩]) []
  exact ⟨h.1 (by decide), h.2.2.mpr ⟨_, rfl, by decide⟩⟩

/-- `List.map f l = l` when `f` fixes every member of `l`. -/
theorem map_eq_self_of_fix {α : Type} (f : α → α) (l : List α)
    (h : ∀ x ∈ l, f x = x) : l.map f = l := by
  induction l with
  | nil => rfl
  | cons a t ih =>
    simp only [List.map_cons, h a (by simp)]
    rw [ih (fun x hx => h x (by simp [hx]))]

/-! ## Claim C10: user messages containing only tool-result blocks -/

/-- Is this block a `tool_result` block? -/
def isToolResultBlock : ContentBlock → Bool
  | .toolResult _ _ => true
  | _ => false

/-- The tool-role target message a `tool_result` block becomes
(src/converter.ts lines 176-180). -/
def toolMsgOf : ContentBlock → OMessage
  | .toolResult toolUseId c =>
    ⟨.tool, some (serializeToolResultContentForOpenAI c).1, none, some toolUseId⟩
  | _ => ⟨.tool, none, none, none⟩

/-- The tool-result warnings a block contributes. -/
def trWarnsOf : ContentBlock → List ConvWarn
  | .toolResult _ c =>
    if (serializeToolResultContentForOpenAI c).2 then [.toolResultProcessing] else []
  | _ => []

/-- Folding the block loop over tool-result-only user content pushes exactly
one tool message per block, in order, and touches nothing else. -/
theorem foldl_toolResults (bs : List ContentBlock) :
    ∀ acc : ConvAccum, (∀ b ∈ bs, isToolResultBlock b = true) →
      bs.foldl (processBlock .user) acc =
        { acc with pushed := acc.pushed ++ bs.map toolMsgOf,
                   warns := acc.warns ++ bs.flatMap trWarnsOf } := by
  induction bs with
  | nil => intro acc _; simp
  | cons b rest ih =>
    intro acc hall
    have hb : isToolResultBlock b = true := hall b (by simp)
    cases b with
    | toolResult tid c =>
      rw [List.foldl_cons, ih _ (fun x hx => hall x (by simp [hx]))]
      simp [processBlock, toolMsgOf, trWarnsOf, List.append_assoc]
    | text t => simp [isToolResultBlock] at hb
    | image s mt d => simp [isToolResultBlock] at hb
    | toolUse i n inp => simp [isToolResultBlock] at hb

/-- Claim C10: a user message whose content is a non-empty block array of
only tool-result blocks yields one tool-role target message per block (in
block order, carrying the block's tool-use id and serialized content)
followed by one user-role message whose content is exactly the empty
string. -/
theorem tool_result_only_user_message (bs : List ContentBlock)
    (h1 : bs ≠ []) (h2 : ∀ b ∈ bs, isToolResultBlock b = true) :
    (convertAnthropicToOpenAIMessages none [⟨.user, .blocks bs⟩]).1 =
      bs.map toolMsgOf ++ [⟨.user, some "", none, none⟩] := by
  match bs, h1 with
  | b :: bs, _ =>
    have hacc := foldl_toolResults (b :: bs) emptyAccum h2
    have hparts : ((b :: bs).foldl (processBlock .user) emptyAccum).userParts = [] := by
      rw [hacc]; simp [emptyAccum]
    have hone : (convertOneMessage ([], []) ⟨.user, .blocks (b :: bs)⟩).1 =
        (b :: bs).map toolMsgOf ++ [⟨.user, some "", none, none⟩] := by
      simp only [convertOneMessage]
      rw [if_neg (by rw [hparts]; simp)]
      rw [hacc]
      simp [emptyAccum]
    show ((convertAnthropicToOpenAIMessages none [⟨.user, .blocks (b :: bs)⟩]).1 = _)
    simp only [convertAnthropicToOpenAIMessages, systemTextOf]
    simp only [ne_eq, not_true_eq_false, List.foldl_cons, List.foldl_nil, if_false]
    have heq : convertOneMessage ([], sysWarnsOf none) ⟨.user, .blocks (b :: bs)⟩ =
        convertOneMessage ([], []) ⟨.user, .blocks (b :: bs)⟩ := by
      simp [sysWarnsOf, convertOneMessage]
    rw [heq]
    have hnorm : ∀ x ∈ (convertOneMessage ([], []) ⟨.user, .blocks (b :: bs)⟩).1,
        normalizeOne x = x := by
      rw [hone]
      intro x hx
      rcases List.mem_append.mp hx with hh | hh
      · rcases List.mem_map.mp hh with ⟨y, _, hy⟩
        subst hy
        cases y <;> simp [toolMsgOf, normalizeOne]
      · simp only [List.mem_singleton] at hh; subst hh; simp [normalizeOne]
    calc (convertOneMessage ([], []) ⟨.user, .blocks (b :: bs)⟩).1.map normalizeOne
        = (convertOneMessage ([], []) ⟨.user, .blocks (b :: bs)⟩).1 :=
          map_eq_self_of_fix _ _ hnorm
      _ = _ := hone

/-- Witness for `tool_result_only_user_message`: a single tool-result block
with string content `"ok"` and id `"t1"`. -/
theorem tool_result_only_user_message_witness :
    (convertAnthropicToOpenAIMessages none
        [⟨.user, .blocks [.toolResult "t1" (.str "ok")]⟩]).1 =
      [⟨ORole.tool, some "ok", none, some "t1"⟩, ⟨ORole.user, some "", none, none⟩] := by
  have h := tool_result_only_user_message [.toolResult "t1" (.str "ok")]
    (by simp) (by decide)
  simpa [toolMsgOf, serializeToolResultContentForOpenAI] using h

/-! ## Claim C8: tool name/id round trip -/

/-- Is this block a `tool_use` block? -/
def isToolUseBlock : ContentBlock → Bool
  | .toolUse _ _ _ => true
  | _ => false

/-- The OpenAI tool call an assistant `tool_use` block becomes
(src/converter.ts lines 139-145). -/
def toolCallOf : ContentBlock → ToolCall
  | .toolUse id name input => ⟨id, name, stringifyJson input⟩
  | _ => ⟨"", "", ""⟩

/-- An assistant tool-use block specification: id, name and
JSON-serializable input. -/
structure ToolUseSpec where
  id : String
  name : String
  input : JsonValue

/-- The `tool_use` content block of a spec. -/
def mkToolUseBlock (t : ToolUseSpec) : ContentBlock := .toolUse t.id t.name t.input

/-- Extract the (id, name) pair of a `tool_use` content block. -/
def toolUseIdName : ContentBlock → Option (String × String)
  | .toolUse id name _ => some (id, name)
  | _ => none

/-- Folding the block loop over tool-use-only assistant content accumulates
exactly one tool call per block, in order, and touches nothing else. -/
theorem foldl_toolUses (bs : List ContentBlock) :
    ∀ acc : ConvAccum, (∀ b ∈ bs, isToolUseBlock b = true) →
      bs.foldl (processBlock .assistant) acc =
        { acc with asstCalls := acc.asstCalls ++ bs.map toolCallOf } := by
  induction bs with
  | nil => intro acc _; simp
  | cons b rest ih =>
    intro acc hall
    have hb : isToolUseBlock b = true := hall b (by simp)
    cases b with
    | toolUse id name input =>
      rw [List.foldl_cons, ih _ (fun x hx => hall x (by simp [hx]))]
      simp [processBlock, toolCallOf, List.append_assoc]
    | text t => simp [isToolUseBlock] at hb
    | image s mt d => simp [isToolUseBlock] at hb
    | toolResult tid c => simp [isToolUseBlock] at hb

/-- Extracting (id, name) from reconstructed tool-use blocks recovers the
specs' ids and names. -/
theorem filterMap_toolUse_map (parseJson : String → Option JsonValue)
    (l : List ToolUseSpec) :
    List.filterMap toolUseIdName (l.map fun t =>
        ContentBlock.toolUse t.id t.name (toolInputOf parseJson (stringifyJson t.input))) =
      l.map (fun t => (t.id, t.name)) := by
  induction l with
  | nil => rfl
  | cons a r ih =>
    simp only [List.map_cons, List.filterMap_cons, toolUseIdName]
    exact congrArg _ ih

/-- Claim C8: translating an assistant message of tool-use blocks to the
target dialect yields a single assistant message carrying one tool call per
block, and feeding those same tool calls through the response translator
reconstructs every tool id and name unchanged, for every parse collaborator. -/
theorem tool_roundtrip (parseJson : String → Option JsonValue)
    (reqId modelName : String) (tus : List ToolUseSpec) (h : tus ≠ []) :
    ∃ calls : List ToolCall,
      (convertAnthropicToOpenAIMessages none
          [⟨.assistant, .blocks (tus.map mkToolUseBlock)⟩]).1 =
        [⟨.assistant, none, some calls, none⟩] ∧
      ((convertOpenAIToAnthropicResponse parseJson
            ⟨"cmpl1", [(⟨none, some calls⟩, "tool_calls")], none⟩
            modelName reqId).content.filterMap toolUseIdName) =
        tus.map (fun t => (t.id, t.name)) := by
  refine ⟨tus.map (fun t => ⟨t.id, t.name, stringifyJson t.input⟩), ?_, ?_⟩
  · match tus, h with
    | t0 :: rest, _ =>
      have hblocks : (t0 :: rest).map mkToolUseBlock =
          mkToolUseBlock t0 :: rest.map mkToolUseBlock := rfl
      have hacc := foldl_toolUses ((t0 :: rest).map mkToolUseBlock) emptyAccum (by
        intro b hb
        rcases List.mem_map.mp hb with ⟨t, _, ht⟩
        subst ht
        rfl)
      have hcalls : ((t0 :: rest).map mkToolUseBlock).map toolCallOf =
          (t0 :: rest).map (fun t => (⟨t.id, t.name, stringifyJson t.input⟩ : ToolCall)) := by
        rw [List.map_map]; rfl
      have hone : (convertOneMessage ([], sysWarnsOf none)
          ⟨.assistant, .blocks ((t0 :: rest).map mkToolUseBlock)⟩).1 =
          [⟨.assistant, none,
            some ((t0 :: rest).map fun t => (⟨t.id, t.name, stringifyJson t.input⟩ : ToolCall)),
            none⟩] := by
      -- the assistant branch: no text, non-empty tool calls attach to a
      -- fresh message with null content
        rw [hblocks]
        simp only [convertOneMessage]
        rw [foldl_toolUses _ _ (by
          intro b hb
          rw [← hblocks] at hb
          rcases List.mem_map.mp hb with ⟨t, _, ht⟩
          subst ht
          rfl)]
        simp only [emptyAccum]
        rw [if_pos (by rw [← hblocks, hcalls]; simp)]
        rw [if_neg (by decide)]
        show attachToolCalls ([] ++ []) _ = _
        rw [← hblocks, hcalls]
        rfl
      show ((convertAnthropicToOpenAIMessages none _).1 = _)
      simp only [convertAnthropicToOpenAIMessages, systemTextOf]
      simp only [ne_eq, not_true_eq_false, List.foldl_cons, List.foldl_nil, if_false]
      rw [hone]
      simp [normalizeOne]
  · match tus, h with
    | t0 :: rest, _ =>
      have hcontent : (convertOpenAIToAnthropicResponse parseJson
            ⟨"cmpl1", [(⟨none, some ((t0 :: rest).map fun t =>
                (⟨t.id, t.name, stringifyJson t.input⟩ : ToolCall))⟩, "tool_calls")], none⟩
            modelName reqId).content =
          ((t0 :: rest).map fun t => (⟨t.id, t.name, stringifyJson t.input⟩ : ToolCall)).map
            (fun call =>
              ContentBlock.toolUse call.id call.name (toolInputOf parseJson call.arguments)) :=
        rfl
      rw [hcontent, List.map_map]
      show List.filterMap toolUseIdName ((t0 :: rest).map fun t =>
          ContentBlock.toolUse t.id t.name (toolInputOf parseJson (stringifyJson t.input))) = _
      exact filterMap_toolUse_map parseJson (t0 :: rest)

/-- Witness for `tool_roundtrip`: a single tool-use block with id `"t1"` and
name `"get_weather"` survives the round trip. -/
theorem tool_roundtrip_witness :
    ∃ calls : List ToolCall,
      (convertAnthropicToOpenAIMessages none
          [⟨.assistant, .blocks ([⟨"t1", "get_weather", JsonValue.obj []⟩].map mkToolUseBlock)⟩]).1 =
        [⟨.assistant, none, some calls, none⟩] ∧
      ((convertOpenAIToAnthropicResponse (fun _ => none)
            ⟨"cmpl1", [(⟨none, some calls⟩, "tool_calls")], none⟩
            "m" "r1").content.filterMap toolUseIdName) = [("t1", "get_weather")] :=
  tool_roundtrip (fun _ => none) "r1" "m"
    [⟨"t1", "get_weather", JsonValue.obj []⟩] (by simp)

/-! ## Streaming translator
(`handleAnthropicStreamingResponseFromOpenAIStream`, src/streaming.ts)

The stream is modelled as a finite list of chunks; the embedding covers the
non-errored path (the claims quantify over fragment sequences processed to
completion).  The token-counting collaborator is a parameter
`encode : String → Nat` (the encoder never throws per the spec's collaborator
contract); SSE framing, logging and the response object are out of scope —
the embedding returns the ordered list of emitted events. -/

/-- Accumulated state of one tool-call block (`ToolState`,
src/streaming.ts lines 9-13). -/
structure ToolState where
  id : String
  name : String
  argumentsBuffer : String
deriving DecidableEq

/-- One element of a chunk's `delta.tool_calls` array.  `""` models an
absent/falsy `id`, `function.name` or `function.arguments`. -/
structure ToolCallDelta where
  index : Nat
  id : String
  fname : String
  fargs : String
deriving DecidableEq

/-- The `delta` of a chunk's first choice.  `content = ""` models an
absent/falsy text delta; an empty `toolCalls` list models an absent
`tool_calls` array (both behave identically in the source). -/
structure ChoiceDelta where
  content : String
  toolCalls : List ToolCallDelta
deriving DecidableEq

/-- One OpenAI stream chunk: the first choice's delta and finish reason
(`""` modelling a null finish reason), or no choices at all. -/
structure Chunk where
  choices : List (ChoiceDelta × String)
deriving DecidableEq

/-- The payload of a `content_block_start` event. -/
inductive BlockInfo where
  | text
  | toolUse (id name : String)
deriving DecidableEq

/-- The payload of a `content_block_delta` event. -/
inductive DeltaInfo where
  | textDelta (s : String)
  | inputJsonDelta (s : String)
deriving DecidableEq

/-- The Anthropic SSE events the streaming translator emits (the
`message_start` payload's model name and estimated input tokens are carried;
ids and usage subfields not touched by any claim are omitted). -/
inductive Event where
  | messageStart (model : String) (inputTokens : Nat)
  | ping
  | contentBlockStart (index : Nat) (block : BlockInfo)
  | contentBlockDelta (index : Nat) (delta : DeltaInfo)
  | contentBlockStop (index : Nat)
  | messageDelta (stopReason : StopReason) (outputTokens : Nat)
  | messageStop
deriving DecidableEq

/-- The per-stream mutable state (src/streaming.ts lines 26-33). -/
structure StreamState where
  nextAnthropicBlockIdx : Nat
  textBlockAnthropicIdx : Option Nat
  openaiToolIdxToAnthropicBlockIdx : List (Nat × Nat)
  toolStates : List (Nat × ToolState)
  sentToolBlockStarts : List Nat
  outputTokenCount : Nat
  finalAnthropicStopReason : Option StopReason
deriving DecidableEq

/-- The initial stream state. -/
def initStreamState : StreamState := ⟨0, none, [], [], [], 0, none⟩

/-- JS `Map.set`: replace in place, or append a new key. -/
def assocSet (k : Nat) (v : ToolState) : List (Nat × ToolState) → List (Nat × ToolState)
  | [] => [(k, v)]
  | (k2, v2) :: rest => if k2 = k then (k, v) :: rest else (k2, v2) :: assocSet k v rest

/-- The synthesized placeholder tool id
(`tool_ph_${requestId}_${idx}`, src/streaming.ts line 122). -/
def placeholderId (requestId : String) (idx : Nat) : String :=
  "tool_ph_" ++ requestId ++ "_" ++ toString idx

/-- `openaiToAnthropicStopReasonMap` (src/streaming.ts lines 37-43). -/
def openaiToAnthropicStopReasonMap : List (String × StopReason) := stopReasonMap

/-- Mapping of a terminal OpenAI finish reason (src/streaming.ts
lines 198-204): table lookup with `end_turn` default, and the explicit
`tool_calls → tool_use` override. -/
def mapStopReason (finishReason : String) : StopReason :=
  let base := (openaiToAnthropicStopReasonMap.lookup finishReason).getD .endTurn
  if finishReason = "tool_calls" then .toolUse else base

/-- First-sight seeding of a tool-call delta (src/streaming.ts lines
116-134): if the OpenAI tool index is unmapped, assign the next free
Anthropic block index, record the mapping and seed the tool state with the
given or placeholder id.  Returns the (possibly unchanged) state and the
mapped Anthropic block index. -/
def seedToolState (requestId : String) (st : StreamState) (td : ToolCallDelta) :
    StreamState × Nat :=
  match st.openaiToolIdxToAnthropicBlockIdx.lookup td.index with
  | some a => (st, a)
  | none =>
    let a := st.nextAnthropicBlockIdx
    ({ st with
        nextAnthropicBlockIdx := a + 1,
        openaiToolIdxToAnthropicBlockIdx :=
          st.openaiToolIdxToAnthropicBlockIdx ++ [(td.index, a)],
        toolStates := assocSet a
          ⟨if td.id ≠ "" then td.id else placeholderId requestId a, "", ""⟩
          st.toolStates }, a)

/-- Field updates of the accumulated tool state by one delta
(src/streaming.ts lines 139-156): upgrade a placeholder id, overwrite the
name, append the arguments fragment. -/
def updatedToolState (td : ToolCallDelta) (ts0 : ToolState) : ToolState :=
  let ts1 :=
    if td.id ≠ "" ∧ strStarts ts0.id "tool_ph_" = true then { ts0 with id := td.id } else ts0
  let ts2 := if td.fname ≠ "" then { ts1 with name := td.fname } else ts1
  if td.fargs ≠ "" then { ts2 with argumentsBuffer := ts2.argumentsBuffer ++ td.fargs }
  else ts2

/-- Readiness of a tool block for its `content_block_start`
(src/streaming.ts lines 159-164): a truthy, non-placeholder id and a truthy
name. -/
def toolStartReady (ts : ToolState) : Bool :=
  (ts.id != "") && (!(strStarts ts.id "tool_ph_")) && (ts.name != "")

/-- Processing of one tool-call delta (src/streaming.ts lines 113-194):
seed state on first sight of the OpenAI tool index, upgrade placeholder ids,
accumulate name and arguments, emit the block start exactly when the state
first has a real id and a name, and emit an arguments delta only once the
start is out. -/
def processToolDelta (requestId : String) (encode : String → Nat)
    (st : StreamState) (td : ToolCallDelta) : StreamState × List Event :=
  let seeded := seedToolState requestId st td
  let st1 := seeded.1
  let aIdx := seeded.2
  let ts3 := updatedToolState td ((st1.toolStates.lookup aIdx).getD ⟨"", "", ""⟩)
  let tokens := if td.fargs ≠ "" then encode td.fargs else 0
  let st2 := { st1 with
    toolStates := assocSet aIdx ts3 st1.toolStates,
    outputTokenCount := st1.outputTokenCount + tokens }
  let startCond : Bool := (!(st2.sentToolBlockStarts.contains aIdx)) && toolStartReady ts3
  let st3 :=
    if startCond then { st2 with sentToolBlockStarts := st2.sentToolBlockStarts ++ [aIdx] }
    else st2
  let startEvs : List Event :=
    if startCond then [.contentBlockStart aIdx (.toolUse ts3.id ts3.name)] else []
  let deltaEvs : List Event :=
    if td.fargs ≠ "" ∧ st3.sentToolBlockStarts.contains aIdx = true then
      [.contentBlockDelta aIdx (.inputJsonDelta td.fargs)]
    else []
  (st3, startEvs ++ deltaEvs)

/-- Processing of a chunk's text content delta (src/streaming.ts
lines 88-109). -/
def processContentDelta (encode : String → Nat) (st : StreamState) (content : String) :
    StreamState × List Event :=
  if content ≠ "" then
    let st1 := { st with outputTokenCount := st.outputTokenCount + encode content }
    match st1.textBlockAnthropicIdx with
    | none =>
      ({ st1 with
          textBlockAnthropicIdx := some st1.nextAnthropicBlockIdx,
          nextAnthropicBlockIdx := st1.nextAnthropicBlockIdx + 1 },
        [.contentBlockStart st1.nextAnthropicBlockIdx .text,
         .contentBlockDelta st1.nextAnthropicBlockIdx (.textDelta content)])
    | some i => (st1, [.contentBlockDelta i (.textDelta content)])
  else (st, [])

/-- Processing of a chunk's tool-call delta list, left to right. -/
def processToolCalls (requestId : String) (encode : String → Nat) :
    StreamState → List ToolCallDelta → StreamState × List Event
  | st, [] => (st, [])
  | st, td :: rest =>
    let r1 := processToolDelta requestId encode st td
    let r2 := processToolCalls requestId encode r1.1 rest
    (r2.1, r1.2 ++ r2.2)

/-- The chunk loop (src/streaming.ts lines 79-205): chunks without choices
are skipped; a chunk's content and tool deltas are processed in order; a
truthy finish reason records the mapped stop reason and breaks the loop. -/
def runLoop (requestId : String) (encode : String → Nat) :
    StreamState → List Chunk → StreamState × List Event
  | st, [] => (st, [])
  | st, c :: rest =>
    match c.choices with
    | [] => runLoop requestId encode st rest
    | (delta, finishReason) :: _ =>
      let r1 := processContentDelta encode st delta.content
      let r2 := processToolCalls requestId encode r1.1 delta.toolCalls
      if finishReason ≠ "" then
        ({ r2.1 with finalAnthropicStopReason := some (mapStopReason finishReason) },
          r1.2 ++ r2.2)
      else
        let r3 := runLoop requestId encode r2.1 rest
        (r3.1, r1.2 ++ r2.2 ++ r3.2)

/-- Finalization events (src/streaming.ts lines 207-245): stop for the open
text block, stops for every tool block whose start was sent (in JS `Set`
insertion order), then the message delta with the (defaulted) stop reason and
running token count, then `message_stop`.  The JSON-validity check on each
buffer only logs and emits nothing. -/
def finalizeEvents (st : StreamState) : List Event :=
  (match st.textBlockAnthropicIdx with
   | some i => [Event.contentBlockStop i]
   | none => []) ++
  st.sentToolBlockStarts.map (fun i => Event.contentBlockStop i) ++
  [Event.messageDelta (st.finalAnthropicStopReason.getD .endTurn) st.outputTokenCount,
   Event.messageStop]

/-- Embedding of `handleAnthropicStreamingResponseFromOpenAIStream` on the
non-errored path: the full ordered event sequence for a fragment list. -/
def handleAnthropicStreamingResponseFromOpenAIStream (requestId : String)
    (originalAnthropicModelName : String) (estimatedInputTokens : Nat)
    (encode : String → Nat) (chunks : List Chunk) : List Event :=
  let r := runLoop requestId encode initStreamState chunks
  Event.messageStart originalAnthropicModelName estimatedInputTokens ::
    Event.ping :: (r.2 ++ finalizeEvents r.1)

/-! ### Event classification and ordering predicates -/

/-- The block index of a `content_block_start` event. -/
def startIdx : Event → Option Nat
  | .contentBlockStart i _ => some i
  | _ => none

/-- The block index of a `content_block_delta` event. -/
def deltaIdx : Event → Option Nat
  | .contentBlockDelta i _ => some i
  | _ => none

/-- The block index of a `content_block_stop` event. -/
def stopIdx : Event → Option Nat
  | .contentBlockStop i => some i
  | _ => none

/-- The block index of a text-block `content_block_start` event. -/
def textStartIdx : Event → Option Nat
  | .contentBlockStart i .text => some i
  | _ => none

/-- The block index of a tool-block `content_block_start` event. -/
def toolStartIdx : Event → Option Nat
  | .contentBlockStart i (.toolUse _ _) => some i
  | _ => none

/-- Does the event carry block index `i`? -/
def mentionsIdx (i : Nat) (e : Event) : Bool :=
  startIdx e == some i || deltaIdx e == some i || stopIdx e == some i

/-- Has block `i` been started in state `st` (text block open at `i`, or a
tool start for `i` already sent)? -/
def startedIn (st : StreamState) (i : Nat) : Bool :=
  st.textBlockAnthropicIdx == some i || st.sentToolBlockStarts.contains i

/-- An option as a zero- or one-element list. -/
def optToList : Option Nat → List Nat
  | some i => [i]
  | none => []

/-- Extend a started-predicate with an event's start index. -/
def addStart (f : Nat → Bool) (e : Event) : Nat → Bool :=
  fun i => f i || (startIdx e == some i)

/-- Every `content_block_delta` in the list is preceded (within the list, or
by the initial started-predicate `f`) by a start for its index. -/
def deltaOk (f : Nat → Bool) : List Event → Prop
  | [] => True
  | e :: rest =>
    (∀ i, deltaIdx e = some i → f i = true) ∧ deltaOk (addStart f e) rest

/-- Well-formedness of the stream state: the sent-starts set is
duplicate-free, all assigned indices are below the next free index, the text
block index is disjoint from the tool block indices, and every sent start is
a tool block. -/
def StateWF (st : StreamState) : Prop :=
  st.sentToolBlockStarts.Nodup ∧
  (∀ i ∈ st.sentToolBlockStarts, i < st.nextAnthropicBlockIdx) ∧
  (∀ i, st.textBlockAnthropicIdx = some i → i < st.nextAnthropicBlockIdx) ∧
  (∀ p ∈ st.openaiToolIdxToAnthropicBlockIdx, p.2 < st.nextAnthropicBlockIdx) ∧
  (∀ i, st.textBlockAnthropicIdx = some i →
    ∀ p ∈ st.openaiToolIdxToAnthropicBlockIdx, p.2 ≠ i) ∧
  (∀ i ∈ st.sentToolBlockStarts, ∃ p ∈ st.openaiToolIdxToAnthropicBlockIdx, p.2 = i)

/-- Relation between a state, a later state, and the events emitted in
between, inside the chunk loop: indices grow, an open text block stays open,
sent tool starts only extend (matching the emitted tool starts in order), a
text start is emitted exactly when the text block opens, only starts and
deltas are emitted, and deltas only for already-started blocks. -/
def StepOk (st st2 : StreamState) (evs : List Event) : Prop :=
  st.nextAnthropicBlockIdx ≤ st2.nextAnthropicBlockIdx ∧
  (∀ i, st.textBlockAnthropicIdx = some i → st2.textBlockAnthropicIdx = some i) ∧
  (∃ ext, st2.sentToolBlockStarts = st.sentToolBlockStarts ++ ext ∧
    evs.filterMap toolStartIdx = ext) ∧
  evs.filterMap textStartIdx =
    (match st.textBlockAnthropicIdx with
     | none => optToList st2.textBlockAnthropicIdx
     | some _ => []) ∧
  (∀ e ∈ evs, (startIdx e).isSome = true ∨ (deltaIdx e).isSome = true) ∧
  deltaOk (startedIn st) evs

/-- `StepOk` is reflexive on the empty event list. -/
theorem stepOk_refl (st : StreamState) : StepOk st st [] := by
  refine ⟨Nat.le_refl _, fun i h => h, ⟨[], by simp, rfl⟩, ?_, by simp, trivial⟩
  cases st.textBlockAnthropicIdx <;> simp [optToList]

/-- A start index is a text start or a tool start. -/
theorem startIdx_cases (e : Event) (i : Nat) (h : startIdx e = some i) :
    textStartIdx e = some i ∨ toolStartIdx e = some i := by
  cases e with
  | contentBlockStart j b =>
    cases b with
    | text => left; cases h; rfl
    | toolUse id name => right; cases h; rfl
  | messageStart m t => cases h
  | ping => cases h
  | contentBlockDelta j d => cases h
  | contentBlockStop j => cases h
  | messageDelta r t => cases h
  | messageStop => cases h

/-- Tool starts are starts. -/
theorem startIdx_of_toolStartIdx (e : Event) (i : Nat) (h : toolStartIdx e = some i) :
    startIdx e = some i := by
  cases e with
  | contentBlockStart j b => cases b with
    | text => cases h
    | toolUse id name => cases h; rfl
  | messageStart m t => cases h
  | ping => cases h
  | contentBlockDelta j d => cases h
  | contentBlockStop j => cases h
  | messageDelta r t => cases h
  | messageStop => cases h

/-- Text starts are starts. -/
theorem startIdx_of_textStartIdx (e : Event) (i : Nat) (h : textStartIdx e = some i) :
    startIdx e = some i := by
  cases e with
  | contentBlockStart j b => cases b with
    | text => cases h; rfl
    | toolUse id name => cases h
  | messageStart m t => cases h
  | ping => cases h
  | contentBlockDelta j d => cases h
  | contentBlockStop j => cases h
  | messageDelta r t => cases h
  | messageStop => cases h

/-- Eliminate a true boolean disjunction. -/
theorem orb_elim {a b : Bool} (h : (a || b) = true) : a = true ∨ b = true := by
  cases a with
  | true => exact Or.inl rfl
  | false => exact Or.inr (by simpa using h)

/-- Introduce a true boolean disjunction from the left. -/
theorem orb_left {a b : Bool} (h : a = true) : (a || b) = true := by
  rw [h]; rfl

/-- Introduce a true boolean disjunction from the right. -/
theorem orb_right {a b : Bool} (h : b = true) : (a || b) = true := by
  cases a <;> simp [h]

/-- Eliminate a true boolean conjunction. -/
theorem andb_elim {a b : Bool} (h : (a && b) = true) : a = true ∧ b = true := by
  cases a with
  | false => simp at h
  | true => exact ⟨rfl, by simpa using h⟩

/-- Eliminate a true boolean negation. -/
theorem notb_elim {b : Bool} (h : (!b) = true) : b = false := by
  cases b with
  | false => rfl
  | true => simp at h

/-- `deltaOk` is monotone in the started-predicate. -/
theorem deltaOk_mono {f g : Nat → Bool} (l : List Event)
    (h : ∀ i, f i = true → g i = true) (hl : deltaOk f l) : deltaOk g l := by
  induction l generalizing f g with
  | nil => trivial
  | cons e rest ih =>
    refine ⟨fun i hi => h i (hl.1 i hi), ?_⟩
    refine ih (f := addStart f e) (g := addStart g e) ?_ hl.2
    intro i hi
    rcases orb_elim hi with hh | hh
    · exact orb_left (h i hh)
    · exact orb_right hh

/-- Folding `addStart` tests the initial predicate or any start in the list. -/
theorem foldl_addStart_true (l : List Event) :
    ∀ (f : Nat → Bool) (i : Nat),
      (l.foldl addStart f) i = (f i || l.any (fun e => startIdx e == some i)) := by
  induction l with
  | nil => intro f i; simp
  | cons e rest ih =>
    intro f i
    rw [List.foldl_cons, ih (addStart f e) i]
    simp [addStart, Bool.or_assoc]

/-- `deltaOk` composes over append. -/
theorem deltaOk_append (l : List Event) :
    ∀ (r : List Event) (f : Nat → Bool),
      deltaOk f l → deltaOk (l.foldl addStart f) r → deltaOk f (l ++ r) := by
  induction l with
  | nil => intro r f _ hr; exact hr
  | cons e t ih =>
    intro r f hl hr
    exact ⟨hl.1, ih r (addStart f e) hl.2 hr⟩

/-- A started block in the later state was started before or had its start
emitted in between. -/
theorem stepOk_started {st st2 : StreamState} {evs : List Event}
    (h : StepOk st st2 evs) (i : Nat) (hs : startedIn st2 i = true) :
    startedIn st i = true ∨ ∃ e ∈ evs, startIdx e = some i := by
  rcases h with ⟨_, htext, ⟨ext, hsent, htool⟩, htextStarts, _, _⟩
  unfold startedIn at hs
  rcases orb_elim hs with hh | hh
  · -- text block open at i in st2
    have h2 : st2.textBlockAnthropicIdx = some i := by
      cases h2 : st2.textBlockAnthropicIdx with
      | none => rw [h2] at hh; cases hh
      | some j => rw [h2] at hh; simp at hh; rw [hh]
    cases h3 : st.textBlockAnthropicIdx with
    | some j =>
      have := htext j h3
      rw [this] at h2
      cases h2
      left
      unfold startedIn
      rw [h3]
      simp
    | none =>
      right
      rw [h3] at htextStarts
      rw [h2] at htextStarts
      have hmem : i ∈ evs.filterMap textStartIdx := by
        rw [htextStarts]; simp [optToList]
      rcases List.mem_filterMap.mp hmem with ⟨e, he, hei⟩
      exact ⟨e, he, startIdx_of_textStartIdx e i hei⟩
  · -- tool start sent for i in st2
    rw [hsent] at hh
    have hh2 := List.mem_append.mp (List.mem_of_elem_eq_true hh)
    rcases hh2 with hh2 | hh2
    · left
      unfold startedIn
      exact orb_right (List.elem_eq_true_of_mem hh2)
    · right
      rw [← htool] at hh2
      rcases List.mem_filterMap.mp hh2 with ⟨e, he, hei⟩
      exact ⟨e, he, startIdx_of_toolStartIdx e i hei⟩

/-- `StepOk` composes. -/
theorem stepOk_trans {st st1 st2 : StreamState} {e1 e2 : List Event}
    (h1 : StepOk st st1 e1) (h2 : StepOk st1 st2 e2) : StepOk st st2 (e1 ++ e2) := by
  obtain ⟨hn1, ht1, ⟨x1, hs1, hf1⟩, htx1, hk1, hd1⟩ := h1
  obtain ⟨hn2, ht2, ⟨x2, hs2, hf2⟩, htx2, hk2, hd2⟩ := h2
  refine ⟨Nat.le_trans hn1 hn2, fun i hi => ht2 i (ht1 i hi),
    ⟨x1 ++ x2, ?_, ?_⟩, ?_, ?_, ?_⟩
  · rw [hs2, hs1, List.append_assoc]
  · rw [List.filterMap_append, hf1, hf2]
  · rw [List.filterMap_append, htx1, htx2]
    cases h3 : st.textBlockAnthropicIdx with
    | some j => simp [ht1 j h3]
    | none =>
      cases h4 : st1.textBlockAnthropicIdx with
      | some j => simp [optToList, ht2 j h4]
      | none => simp [optToList]
  · intro e he
    rcases List.mem_append.mp he with hh | hh
    · exact hk1 e hh
    · exact hk2 e hh
  · refine deltaOk_append e1 e2 (startedIn st) hd1 ?_
    refine deltaOk_mono e2 ?_ hd2
    intro i hi
    rw [foldl_addStart_true]
    rcases stepOk_started ⟨hn1, ht1, ⟨x1, hs1, hf1⟩, htx1, hk1, hd1⟩ i hi with hh | ⟨e, he, hei⟩
    · exact orb_left hh
    · refine orb_right ?_
      refine List.any_eq_true.mpr ⟨e, he, ?_⟩
      rw [hei]
      simp

end AnthropicProxy


namespace AnthropicProxy

/-- A successful association-list lookup is a membership. -/
theorem lookup_mem : ∀ (l : List (Nat × Nat)) (k v : Nat),
    l.lookup k = some v → (k, v) ∈ l := by
  intro l
  induction l with
  | nil => intro k v h; cases h
  | cons p rest ih =>
    intro k v h
    rcases p with ⟨a, b⟩
    simp only [List.lookup] at h
    by_cases hk : k = a
    · subst hk
      simp only [beq_self_eq_true] at h
      cases h
      exact List.mem_cons_self _ _
    · have : (k == a) = false := beq_eq_false_iff_ne.mpr hk
      rw [this] at h
      exact List.mem_cons_of_mem _ (ih k v h)

/-- Text-content processing preserves well-formedness and satisfies the step
relation. -/
theorem processContentDelta_step (encode : String → Nat) (st : StreamState)
    (content : String) (hwf : StateWF st) :
    StateWF (processContentDelta encode st content).1 ∧
      StepOk st (processContentDelta encode st content).1
        (processContentDelta encode st content).2 := by
  by_cases hc : content = ""
  · have heq : processContentDelta encode st content = (st, []) := by
      simp [processContentDelta, hc]
    rw [heq]
    exact ⟨hwf, stepOk_refl st⟩
  · cases ht : st.textBlockAnthropicIdx with
    | some i =>
      have heq : processContentDelta encode st content =
          ({ st with outputTokenCount := st.outputTokenCount + encode content },
            [.contentBlockDelta i (.textDelta content)]) := by
        simp [processContentDelta, hc, ht]
      rw [heq]
      refine ⟨hwf, Nat.le_refl _, fun j hj => hj, ⟨[], by simp, rfl⟩, ?_, ?_, ?_, trivial⟩
      · show ([] : List Nat) = _
        rw [ht]
      · intro e he
        simp only [List.mem_singleton] at he
        subst he
        right
        rfl
      · intro j hj
        simp only [deltaIdx, Option.some.injEq] at hj
        subst hj
        unfold startedIn
        rw [ht]
        simp
    | none =>
      have heq : processContentDelta encode st content =
          ({ st with
              outputTokenCount := st.outputTokenCount + encode content
              textBlockAnthropicIdx := some st.nextAnthropicBlockIdx
              nextAnthropicBlockIdx := st.nextAnthropicBlockIdx + 1 },
            [.contentBlockStart st.nextAnthropicBlockIdx .text,
             .contentBlockDelta st.nextAnthropicBlockIdx (.textDelta content)]) := by
        simp [processContentDelta, hc, ht]
      rw [heq]
      obtain ⟨w1, w2, w3, w4, w5, w6⟩ := hwf
      constructor
      · refine ⟨w1, ?_, ?_, ?_, ?_, ?_⟩
        · intro j hj; exact Nat.lt_succ_of_lt (w2 j hj)
        · intro j hj
          simp only [Option.some.injEq] at hj
          subst hj
          exact Nat.lt_succ_self _
        · intro p hp; exact Nat.lt_succ_of_lt (w4 p hp)
        · intro j hj p hp
          simp only [Option.some.injEq] at hj
          subst hj
          exact Nat.ne_of_lt (w4 p hp)
        · exact w6
      · refine ⟨Nat.le_succ _, ?_, ⟨[], by simp, rfl⟩, ?_, ?_, ?_, ?_, trivial⟩
        · intro j hj
          rw [ht] at hj
          cases hj
        · show [st.nextAnthropicBlockIdx] = _
          rw [ht]
          rfl
        · intro e he
          simp only [List.mem_cons, List.mem_singleton] at he
          rcases he with he | he | he
          · subst he; left; rfl
          · subst he; right; rfl
          · cases he
        · intro j hj
          simp only [deltaIdx] at hj
          cases hj
        · intro j hj
          simp only [deltaIdx, Option.some.injEq] at hj
          subst hj
          unfold addStart
          refine orb_right ?_
          simp [startIdx]


/-- A false `contains` is a non-membership. -/
theorem not_mem_of_contains_false {l : List Nat} {a : Nat}
    (h : l.contains a = false) : a ∉ l := by
  intro hm
  have h2 := List.elem_eq_true_of_mem hm
  rw [show l.elem a = l.contains a from rfl, h] at h2
  cases h2

/-- Appending a fresh element preserves `Nodup`. -/
theorem nodup_append_singleton {l : List Nat} {a : Nat}
    (h : l.Nodup) (ha : a ∉ l) : (l ++ [a]).Nodup := by
  simp [List.nodup_append, h, ha]

/-- Seeding preserves well-formedness; it leaves the text block, the sent
starts and the stop reason alone, can only grow the next index, and maps the
delta to an in-range tool block index. -/
theorem seedToolState_spec (requestId : String) (st : StreamState) (td : ToolCallDelta)
    (hwf : StateWF st) :
    StateWF (seedToolState requestId st td).1 ∧
    (seedToolState requestId st td).1.textBlockAnthropicIdx = st.textBlockAnthropicIdx ∧
    (seedToolState requestId st td).1.sentToolBlockStarts = st.sentToolBlockStarts ∧
    st.nextAnthropicBlockIdx ≤ (seedToolState requestId st td).1.nextAnthropicBlockIdx ∧
    (seedToolState requestId st td).2 < (seedToolState requestId st td).1.nextAnthropicBlockIdx ∧
    (∃ p ∈ (seedToolState requestId st td).1.openaiToolIdxToAnthropicBlockIdx,
      p.2 = (seedToolState requestId st td).2) ∧
    (seedToolState requestId st td).1.finalAnthropicStopReason = st.finalAnthropicStopReason := by
  obtain ⟨w1, w2, w3, w4, w5, w6⟩ := hwf
  cases hlk : st.openaiToolIdxToAnthropicBlockIdx.lookup td.index with
  | some a =>
    have heq : seedToolState requestId st td = (st, a) := by
      simp [seedToolState, hlk]
    rw [heq]
    have hmem := lookup_mem _ _ _ hlk
    exact ⟨⟨w1, w2, w3, w4, w5, w6⟩, rfl, rfl, Nat.le_refl _, w4 _ hmem,
      ⟨(td.index, a), hmem, rfl⟩, rfl⟩
  | none =>
    have heq : seedToolState requestId st td =
        ({ st with
            nextAnthropicBlockIdx := st.nextAnthropicBlockIdx + 1
            openaiToolIdxToAnthropicBlockIdx :=
              st.openaiToolIdxToAnthropicBlockIdx ++ [(td.index, st.nextAnthropicBlockIdx)]
            toolStates := assocSet st.nextAnthropicBlockIdx
              ⟨if td.id ≠ "" then td.id else placeholderId requestId st.nextAnthropicBlockIdx,
                "", ""⟩ st.toolStates },
          st.nextAnthropicBlockIdx) := by
      simp [seedToolState, hlk]
    rw [heq]
    refine ⟨⟨w1, ?_, ?_, ?_, ?_, ?_⟩, rfl, rfl, Nat.le_succ _, Nat.lt_succ_self _,
      ⟨(td.index, st.nextAnthropicBlockIdx), by simp, rfl⟩, rfl⟩
    · intro j hj; exact Nat.lt_succ_of_lt (w2 j hj)
    · intro j hj; exact Nat.lt_succ_of_lt (w3 j hj)
    · intro p hp
      rcases List.mem_append.mp hp with hh | hh
      · exact Nat.lt_succ_of_lt (w4 p hh)
      · simp only [List.mem_singleton] at hh
        subst hh
        exact Nat.lt_succ_self _
    · intro j hj p hp
      rcases List.mem_append.mp hp with hh | hh
      · exact w5 j hj p hh
      · simp only [List.mem_singleton] at hh
        subst hh
        exact Nat.ne_of_gt (w3 j hj)
    · intro j hj
      rcases w6 j hj with ⟨p, hp, hpe⟩
      exact ⟨p, List.mem_append_left _ hp, hpe⟩

/-- The start/delta emission phase of one tool delta preserves
well-formedness and satisfies the step relation. -/
theorem emitToolStart_step (st2 : StreamState) (a : Nat) (ts3 : ToolState) (fargs : String)
    (hwf2 : StateWF st2) (ha : a < st2.nextAnthropicBlockIdx)
    (hmap : ∃ p ∈ st2.openaiToolIdxToAnthropicBlockIdx, p.2 = a) :
    StateWF (if ((!(st2.sentToolBlockStarts.contains a)) && toolStartReady ts3) = true then
        { st2 with sentToolBlockStarts := st2.sentToolBlockStarts ++ [a] } else st2) ∧
    StepOk st2
      (if ((!(st2.sentToolBlockStarts.contains a)) && toolStartReady ts3) = true then
        { st2 with sentToolBlockStarts := st2.sentToolBlockStarts ++ [a] } else st2)
      ((if ((!(st2.sentToolBlockStarts.contains a)) && toolStartReady ts3) = true then
          [Event.contentBlockStart a (.toolUse ts3.id ts3.name)] else []) ++
        (if fargs ≠ "" ∧
            ((if ((!(st2.sentToolBlockStarts.contains a)) && toolStartReady ts3) = true then
                { st2 with sentToolBlockStarts := st2.sentToolBlockStarts ++ [a] }
              else st2).sentToolBlockStarts.contains a) = true then
          [Event.contentBlockDelta a (.inputJsonDelta fargs)] else [])) := by
  obtain ⟨w1, w2, w3, w4, w5, w6⟩ := hwf2
  by_cases hsc : ((!(st2.sentToolBlockStarts.contains a)) && toolStartReady ts3) = true
  · rw [if_pos hsc, if_pos hsc]
    show StateWF { st2 with sentToolBlockStarts := st2.sentToolBlockStarts ++ [a] } ∧
      StepOk st2 { st2 with sentToolBlockStarts := st2.sentToolBlockStarts ++ [a] }
        ([Event.contentBlockStart a (BlockInfo.toolUse ts3.id ts3.name)] ++
          (if fargs ≠ "" ∧ (st2.sentToolBlockStarts ++ [a]).contains a = true then
            [Event.contentBlockDelta a (DeltaInfo.inputJsonDelta fargs)] else []))
    have hnotmem : a ∉ st2.sentToolBlockStarts := by
      exact not_mem_of_contains_false (notb_elim (andb_elim hsc).1)
    have hwf3 : StateWF { st2 with sentToolBlockStarts := st2.sentToolBlockStarts ++ [a] } := by
      refine ⟨nodup_append_singleton w1 hnotmem, ?_, w3, w4, w5, ?_⟩
      · intro j hj
        rcases List.mem_append.mp hj with hh | hh
        · exact w2 j hh
        · simp only [List.mem_singleton] at hh
          subst hh
          exact ha
      · intro j hj
        rcases List.mem_append.mp hj with hh | hh
        · exact w6 j hh
        · simp only [List.mem_singleton] at hh
          subst hh
          exact hmap
    refine ⟨hwf3, Nat.le_refl _, fun j hj => hj, ⟨[a], rfl, ?_⟩, ?_, ?_, ?_⟩
    · -- tool starts of the emitted events
      by_cases hde : fargs ≠ "" ∧
          (st2.sentToolBlockStarts ++ [a]).contains a = true
      · rw [if_pos hde]; rfl
      · rw [if_neg hde]; rfl
    · -- no text starts
      have hz : List.filterMap textStartIdx
          ([Event.contentBlockStart a (.toolUse ts3.id ts3.name)] ++
            (if fargs ≠ "" ∧ (st2.sentToolBlockStarts ++ [a]).contains a = true then
              [Event.contentBlockDelta a (.inputJsonDelta fargs)] else [])) = [] := by
        by_cases hde : fargs ≠ "" ∧ (st2.sentToolBlockStarts ++ [a]).contains a = true
        · rw [if_pos hde]; rfl
        · rw [if_neg hde]; rfl
      rw [hz]
      cases h2 : st2.textBlockAnthropicIdx <;> simp [optToList]
    · intro e he
      rcases List.mem_append.mp he with hh | hh
      · simp only [List.mem_singleton] at hh
        subst hh
        left; rfl
      · by_cases hde : fargs ≠ "" ∧ (st2.sentToolBlockStarts ++ [a]).contains a = true
        · rw [if_pos hde] at hh
          simp only [List.mem_singleton] at hh
          subst hh
          right; rfl
        · rw [if_neg hde] at hh
          cases hh
    · refine ⟨?_, ?_⟩
      · intro j hj
        simp only [deltaIdx] at hj
        cases hj
      · by_cases hde : fargs ≠ "" ∧ (st2.sentToolBlockStarts ++ [a]).contains a = true
        · rw [if_pos hde]
          refine ⟨?_, trivial⟩
          intro j hj
          simp only [deltaIdx, Option.some.injEq] at hj
          subst hj
          unfold addStart
          refine orb_right ?_
          simp [startIdx]
        · rw [if_neg hde]
          trivial
  · rw [if_neg hsc, if_neg hsc]
    show StateWF st2 ∧ StepOk st2 st2
        (([] : List Event) ++
          (if fargs ≠ "" ∧ st2.sentToolBlockStarts.contains a = true then
            [Event.contentBlockDelta a (DeltaInfo.inputJsonDelta fargs)] else []))
    refine ⟨⟨w1, w2, w3, w4, w5, w6⟩, Nat.le_refl _, fun j hj => hj, ⟨[], by simp, ?_⟩,
      ?_, ?_, ?_⟩
    · by_cases hde : fargs ≠ "" ∧ st2.sentToolBlockStarts.contains a = true
      · rw [if_pos hde]; rfl
      · rw [if_neg hde]; rfl
    · have hz : List.filterMap textStartIdx
          (([] : List Event) ++
            (if fargs ≠ "" ∧ st2.sentToolBlockStarts.contains a = true then
              [Event.contentBlockDelta a (.inputJsonDelta fargs)] else [])) = [] := by
        by_cases hde : fargs ≠ "" ∧ st2.sentToolBlockStarts.contains a = true
        · rw [if_pos hde]; rfl
        · rw [if_neg hde]; rfl
      rw [hz]
      cases h2 : st2.textBlockAnthropicIdx <;> simp [optToList]
    · intro e he
      rw [List.nil_append] at he
      by_cases hde : fargs ≠ "" ∧ st2.sentToolBlockStarts.contains a = true
      · rw [if_pos hde] at he
        simp only [List.mem_singleton] at he
        subst he
        right; rfl
      · rw [if_neg hde] at he
        cases he
    · rw [List.nil_append]
      by_cases hde : fargs ≠ "" ∧ st2.sentToolBlockStarts.contains a = true
      · rw [if_pos hde]
        refine ⟨?_, trivial⟩
        intro j hj
        simp only [deltaIdx, Option.some.injEq] at hj
        subst hj
        unfold startedIn
        exact orb_right hde.2
      · rw [if_neg hde]
        trivial


/-- One tool-call delta preserves well-formedness and satisfies the step
relation. -/
theorem processToolDelta_step (requestId : String) (encode : String → Nat)
    (st : StreamState) (td : ToolCallDelta) (hwf : StateWF st) :
    StateWF (processToolDelta requestId encode st td).1 ∧
      StepOk st (processToolDelta requestId encode st td).1
        (processToolDelta requestId encode st td).2 := by
  obtain ⟨hwf1, htext1, hsent1, hle1, haidx, hmap1, hstop1⟩ :=
    seedToolState_spec requestId st td hwf
  have h01 : StepOk st (seedToolState requestId st td).1 [] := by
    refine ⟨hle1, ?_, ⟨[], by rw [hsent1]; simp, rfl⟩, ?_, by simp, trivial⟩
    · intro i hi; rw [htext1]; exact hi
    · cases h2 : st.textBlockAnthropicIdx with
      | some j => simp
      | none =>
        rw [htext1, h2]
        rfl
  have h12 : StepOk (seedToolState requestId st td).1
      { (seedToolState requestId st td).1 with
          toolStates := assocSet (seedToolState requestId st td).2
            (updatedToolState td
              (((seedToolState requestId st td).1.toolStates.lookup
                (seedToolState requestId st td).2).getD ⟨"", "", ""⟩))
            (seedToolState requestId st td).1.toolStates
          outputTokenCount := (seedToolState requestId st td).1.outputTokenCount +
            (if td.fargs ≠ "" then encode td.fargs else 0) } [] := by
    refine ⟨Nat.le_refl _, fun i hi => hi, ⟨[], by simp, rfl⟩, ?_, by simp, trivial⟩
    cases h2 : (seedToolState requestId st td).1.textBlockAnthropicIdx <;>
      simp [optToList]
  have hem := emitToolStart_step
    { (seedToolState requestId st td).1 with
        toolStates := assocSet (seedToolState requestId st td).2
          (updatedToolState td
            (((seedToolState requestId st td).1.toolStates.lookup
              (seedToolState requestId st td).2).getD ⟨"", "", ""⟩))
          (seedToolState requestId st td).1.toolStates
        outputTokenCount := (seedToolState requestId st td).1.outputTokenCount +
          (if td.fargs ≠ "" then encode td.fargs else 0) }
    (seedToolState requestId st td).2
    (updatedToolState td
      (((seedToolState requestId st td).1.toolStates.lookup
        (seedToolState requestId st td).2).getD ⟨"", "", ""⟩))
    td.fargs hwf1 haidx hmap1
  have hfin := stepOk_trans (stepOk_trans h01 h12) hem.2
  exact ⟨hem.1, hfin⟩


/-- A tool-call delta list preserves well-formedness and satisfies the step
relation. -/
theorem processToolCalls_step (requestId : String) (encode : String → Nat)
    (tds : List ToolCallDelta) :
    ∀ st : StreamState, StateWF st →
      StateWF (processToolCalls requestId encode st tds).1 ∧
        StepOk st (processToolCalls requestId encode st tds).1
          (processToolCalls requestId encode st tds).2 := by
  induction tds with
  | nil => intro st hwf; exact ⟨hwf, stepOk_refl st⟩
  | cons td rest ih =>
    intro st hwf
    obtain ⟨hwf1, h1⟩ := processToolDelta_step requestId encode st td hwf
    obtain ⟨hwf2, h2⟩ := ih (processToolDelta requestId encode st td).1 hwf1
    have hfin := stepOk_trans h1 h2
    exact ⟨hwf2, hfin⟩

/-- The chunk loop preserves well-formedness and satisfies the step
relation. -/
theorem runLoop_step (requestId : String) (encode : String → Nat) (chunks : List Chunk) :
    ∀ st : StreamState, StateWF st →
      StateWF (runLoop requestId encode st chunks).1 ∧
        StepOk st (runLoop requestId encode st chunks).1
          (runLoop requestId encode st chunks).2 := by
  induction chunks with
  | nil => intro st hwf; exact ⟨hwf, stepOk_refl st⟩
  | cons c rest ih =>
    intro st hwf
    cases hch : c.choices with
    | nil =>
      simp only [runLoop, hch]
      exact ih st hwf
    | cons p more =>
      rcases p with ⟨delta, finishReason⟩
      obtain ⟨hwfA, hA⟩ := processContentDelta_step encode st delta.content hwf
      obtain ⟨hwfB, hB⟩ := processToolCalls_step requestId encode delta.toolCalls _ hwfA
      by_cases hf : finishReason ≠ ""
      · simp only [runLoop, hch]
        rw [if_pos hf]
        have hAB := stepOk_trans hA hB
        exact ⟨hwfB, hAB⟩
      · simp only [runLoop, hch]
        rw [if_neg hf]
        obtain ⟨hwfC, hC⟩ :=
          ih (processToolCalls requestId encode
            (processContentDelta encode st delta.content).1 delta.toolCalls).1 hwfB
        have hfin := stepOk_trans (stepOk_trans hA hB) hC
        exact ⟨hwfC, by simpa [List.append_assoc] using hfin⟩

/-- Seeding never touches the stop reason. -/
theorem seedToolState_stop (requestId : String) (st : StreamState) (td : ToolCallDelta) :
    (seedToolState requestId st td).1.finalAnthropicStopReason =
      st.finalAnthropicStopReason := by
  cases hlk : st.openaiToolIdxToAnthropicBlockIdx.lookup td.index <;>
    simp [seedToolState, hlk]

/-- Text-content processing never touches the stop reason. -/
theorem processContentDelta_stop (encode : String → Nat) (st : StreamState)
    (content : String) :
    (processContentDelta encode st content).1.finalAnthropicStopReason =
      st.finalAnthropicStopReason := by
  by_cases hc : content = ""
  · simp [processContentDelta, hc]
  · cases ht : st.textBlockAnthropicIdx <;> simp [processContentDelta, hc, ht]

/-- One tool-call delta never touches the stop reason. -/
theorem processToolDelta_stop (requestId : String) (encode : String → Nat)
    (st : StreamState) (td : ToolCallDelta) :
    (processToolDelta requestId encode st td).1.finalAnthropicStopReason =
      st.finalAnthropicStopReason := by
  simp only [processToolDelta]
  split <;> simp [seedToolState_stop]

/-- A tool-call delta list never touches the stop reason. -/
theorem processToolCalls_stop (requestId : String) (encode : String → Nat)
    (tds : List ToolCallDelta) :
    ∀ st : StreamState,
      (processToolCalls requestId encode st tds).1.finalAnthropicStopReason =
        st.finalAnthropicStopReason := by
  induction tds with
  | nil => intro st; rfl
  | cons td rest ih =>
    intro st
    show (processToolCalls requestId encode
        (processToolDelta requestId encode st td).1 rest).1.finalAnthropicStopReason = _
    rw [ih, processToolDelta_stop]

/-- The first truthy finish reason among the processed chunks
(chunks without choices are skipped; processing stops at the first
truthy finish reason). -/
def firstFinishReason : List Chunk → Option String
  | [] => none
  | c :: rest =>
    match c.choices with
    | [] => firstFinishReason rest
    | (_, f) :: _ => if f ≠ "" then some f else firstFinishReason rest

/-- The loop's final stop reason is the mapped first truthy finish reason,
or the initial value when the chunks carry none. -/
theorem runLoop_stopReason (requestId : String) (encode : String → Nat)
    (chunks : List Chunk) :
    ∀ st : StreamState,
      (runLoop requestId encode st chunks).1.finalAnthropicStopReason =
        (match firstFinishReason chunks with
         | some r => some (mapStopReason r)
         | none => st.finalAnthropicStopReason) := by
  induction chunks with
  | nil => intro st; rfl
  | cons c rest ih =>
    intro st
    cases hch : c.choices with
    | nil =>
      simp only [runLoop, firstFinishReason, hch]
      exact ih st
    | cons p more =>
      rcases p with ⟨delta, finishReason⟩
      by_cases hf : finishReason ≠ ""
      · simp only [runLoop, firstFinishReason, hch]
        rw [if_pos hf, if_pos hf]
      · simp only [runLoop, firstFinishReason, hch]
        rw [if_neg hf, if_neg hf]
        rw [ih, processToolCalls_stop, processContentDelta_stop]


/-- The claim's fixed finish-reason table: stop→end_turn, length→max_tokens,
tool_calls→tool_use, function_call→tool_use, content_filter→stop_sequence,
anything else→end_turn. -/
def claimStopReasonTable (r : String) : StopReason :=
  if r = "stop" then .endTurn
  else if r = "length" then .maxTokens
  else if r = "tool_calls" then .toolUse
  else if r = "function_call" then .toolUse
  else if r = "content_filter" then .stopSequence
  else .endTurn

/-- The stop reason the claim prescribes for a fragment sequence: the table
image of the first terminal finish reason, forced to tool_use for tool-call
related reasons, and end_turn when the source is exhausted with no terminal
reason. -/
def claimStopReason (chunks : List Chunk) : StopReason :=
  match firstFinishReason chunks with
  | some r =>
    if r = "tool_calls" ∨ r = "function_call" then .toolUse else claimStopReasonTable r
  | none => .endTurn

/-- The source's finish-reason mapping agrees with the claim's table. -/
theorem mapStopReason_eq_claim (r : String) :
    mapStopReason r =
      (if r = "tool_calls" ∨ r = "function_call" then StopReason.toolUse
       else claimStopReasonTable r) := by
  by_cases h1 : r = "stop"
  · subst h1; rfl
  by_cases h2 : r = "length"
  · subst h2; rfl
  by_cases h3 : r = "tool_calls"
  · subst h3; rfl
  by_cases h4 : r = "function_call"
  · subst h4; rfl
  by_cases h5 : r = "content_filter"
  · subst h5; rfl
  have e1 : (r == "stop") = false := beq_eq_false_iff_ne.mpr h1
  have e2 : (r == "length") = false := beq_eq_false_iff_ne.mpr h2
  have e3 : (r == "tool_calls") = false := beq_eq_false_iff_ne.mpr h3
  have e4 : (r == "function_call") = false := beq_eq_false_iff_ne.mpr h4
  have e5 : (r == "content_filter") = false := beq_eq_false_iff_ne.mpr h5
  simp [mapStopReason, openaiToAnthropicStopReasonMap, stopReasonMap, List.lookup,
    claimStopReasonTable, h1, h2, h3, h4, h5, e1, e2, e3, e4, e5]

/-- The initial stream state is well-formed. -/
theorem initStreamState_wf : StateWF initStreamState := by
  refine ⟨?_, ?_, ?_, ?_, ?_, ?_⟩ <;> simp [initStreamState]

/-- Loop events (starts and deltas) are never `message_delta` events. -/
theorem not_messageDelta_of_kind {e : Event}
    (h : (startIdx e).isSome = true ∨ (deltaIdx e).isSome = true) :
    ∀ r u, e ≠ Event.messageDelta r u := by
  intro r u hc
  subst hc
  rcases h with h | h <;> simp [startIdx, deltaIdx] at h

/-- Claim C4: the final `message_delta` carries the stop reason given by the
fixed table applied to the first terminal finish reason (tool_use forced for
tool-call related reasons), or end_turn when the fragments are exhausted with
no terminal reason; it is the only `message_delta` of the stream. -/
theorem stream_stop_reason (requestId originalAnthropicModelName : String)
    (estimatedInputTokens : Nat) (encode : String → Nat) (chunks : List Chunk) :
    ∃ pre t,
      handleAnthropicStreamingResponseFromOpenAIStream requestId
          originalAnthropicModelName estimatedInputTokens encode chunks =
        pre ++ [Event.messageDelta (claimStopReason chunks) t, Event.messageStop] ∧
      ∀ e ∈ pre, ∀ r u, e ≠ Event.messageDelta r u := by
  obtain ⟨hwf, hstep⟩ := runLoop_step requestId encode chunks initStreamState initStreamState_wf
  have hstop : ((runLoop requestId encode initStreamState chunks).1.finalAnthropicStopReason).getD
      StopReason.endTurn = claimStopReason chunks := by
    rw [runLoop_stopReason]
    unfold claimStopReason
    cases hff : firstFinishReason chunks with
    | none => rfl
    | some r =>
      show (some (mapStopReason r)).getD StopReason.endTurn =
        (if r = "tool_calls" ∨ r = "function_call" then StopReason.toolUse
         else claimStopReasonTable r)
      rw [Option.getD_some, mapStopReason_eq_claim]
  refine ⟨Event.messageStart originalAnthropicModelName estimatedInputTokens ::
      Event.ping ::
      ((runLoop requestId encode initStreamState chunks).2 ++
        ((match (runLoop requestId encode initStreamState chunks).1.textBlockAnthropicIdx with
          | some i => [Event.contentBlockStop i]
          | none => []) ++
          (runLoop requestId encode initStreamState chunks).1.sentToolBlockStarts.map
            (fun i => Event.contentBlockStop i))),
    (runLoop requestId encode initStreamState chunks).1.outputTokenCount, ?_, ?_⟩
  · show Event.messageStart originalAnthropicModelName estimatedInputTokens ::
        Event.ping ::
        ((runLoop requestId encode initStreamState chunks).2 ++
          finalizeEvents (runLoop requestId encode initStreamState chunks).1) = _
    unfold finalizeEvents
    rw [hstop]
    simp [List.append_assoc]
  · intro e he
    simp only [List.mem_cons] at he
    rcases he with he | he | he
    · subst he; intro r u hc; cases hc
    · subst he; intro r u hc; cases hc
    · rcases List.mem_append.mp he with hh | hh
      · exact not_messageDelta_of_kind
          ((hstep.2.2.2.2.1) e hh)
      · rcases List.mem_append.mp hh with hh2 | hh2
        · cases h2 : (runLoop requestId encode initStreamState chunks).1.textBlockAnthropicIdx with
          | some i =>
            rw [h2] at hh2
            simp only [List.mem_singleton] at hh2
            subst hh2
            intro r u hc; cases hc
          | none =>
            rw [h2] at hh2
            cases hh2
        · rcases List.mem_map.mp hh2 with ⟨i, _, hi⟩
          subst hi
          intro r u hc; cases hc


/-- Loop events (starts and deltas) are never stop events. -/
theorem stopIdx_none_of_kind {e : Event}
    (h : (startIdx e).isSome = true ∨ (deltaIdx e).isSome = true) : stopIdx e = none := by
  cases e <;> first
  | rfl
  | (rcases h with h | h <;> simp [startIdx, deltaIdx] at h)

/-- Stop events mapped from a list of indices filter back to that list. -/
theorem filterMap_stop_map (l : List Nat) :
    (l.map (fun i => Event.contentBlockStop i)).filterMap stopIdx = l := by
  induction l with
  | nil => rfl
  | cons a t ih => simp [stopIdx, ih]

/-- Claim C3 (amended): at finalization the translator emits the stop for
the open text block first, then one stop per tool block whose start was
emitted, in the order those starts were emitted (JS `Set` insertion order) —
which is ascending block-index order only when starts were emitted in index
order.  Stated event-wise: the sequence of stop indices equals the sequence
of text-start indices followed by the sequence of tool-start indices. -/
theorem stream_stop_ordering (requestId originalAnthropicModelName : String)
    (estimatedInputTokens : Nat) (encode : String → Nat) (chunks : List Chunk) :
    (handleAnthropicStreamingResponseFromOpenAIStream requestId
        originalAnthropicModelName estimatedInputTokens encode chunks).filterMap stopIdx =
      (handleAnthropicStreamingResponseFromOpenAIStream requestId
        originalAnthropicModelName estimatedInputTokens encode chunks).filterMap textStartIdx ++
      (handleAnthropicStreamingResponseFromOpenAIStream requestId
        originalAnthropicModelName estimatedInputTokens encode chunks).filterMap toolStartIdx := by
  obtain ⟨hwf, hstep⟩ := runLoop_step requestId encode chunks initStreamState initStreamState_wf
  obtain ⟨hle, htext, ⟨ext, hsent, htool⟩, htextStarts, hkinds, hdelta⟩ := hstep
  have hHandle : handleAnthropicStreamingResponseFromOpenAIStream requestId
      originalAnthropicModelName estimatedInputTokens encode chunks =
      Event.messageStart originalAnthropicModelName estimatedInputTokens ::
        Event.ping :: ((runLoop requestId encode initStreamState chunks).2 ++
          finalizeEvents (runLoop requestId encode initStreamState chunks).1) := rfl
  rw [hHandle]
  have hLstops : ((runLoop requestId encode initStreamState chunks).2).filterMap stopIdx = [] := by
    rw [List.filterMap_eq_nil]
    intro e he
    exact stopIdx_none_of_kind (hkinds e he)
  have hLtool : ((runLoop requestId encode initStreamState chunks).2).filterMap toolStartIdx =
      (runLoop requestId encode initStreamState chunks).1.sentToolBlockStarts := by
    rw [htool, hsent]
    rfl
  have hFin : (finalizeEvents (runLoop requestId encode initStreamState chunks).1).filterMap
      stopIdx =
      optToList (runLoop requestId encode initStreamState chunks).1.textBlockAnthropicIdx ++
        (runLoop requestId encode initStreamState chunks).1.sentToolBlockStarts := by
    unfold finalizeEvents
    rw [List.filterMap_append, List.filterMap_append]
    have h1 : (match (runLoop requestId encode initStreamState chunks).1.textBlockAnthropicIdx with
        | some i => [Event.contentBlockStop i]
        | none => ([] : List Event)).filterMap stopIdx =
        optToList (runLoop requestId encode initStreamState chunks).1.textBlockAnthropicIdx := by
      cases h2 : (runLoop requestId encode initStreamState chunks).1.textBlockAnthropicIdx <;>
        simp [optToList, stopIdx]
    rw [h1, filterMap_stop_map]
    simp
    exact ⟨rfl, rfl⟩
  have hFinText : (finalizeEvents (runLoop requestId encode initStreamState chunks).1).filterMap
      textStartIdx = [] := by
    unfold finalizeEvents
    rw [List.filterMap_eq_nil]
    intro e he
    rcases List.mem_append.mp he with hh | hh
    · rcases List.mem_append.mp hh with hh2 | hh2
      · cases h2 : (runLoop requestId encode initStreamState chunks).1.textBlockAnthropicIdx with
        | some i => rw [h2] at hh2; simp only [List.mem_singleton] at hh2; subst hh2; rfl
        | none => rw [h2] at hh2; cases hh2
      · rcases List.mem_map.mp hh2 with ⟨i, _, hi⟩; subst hi; rfl
    · simp only [List.mem_cons, List.mem_singleton] at hh
      rcases hh with hh | hh | hh
      · subst hh; rfl
      · subst hh; rfl
      · cases hh
  have hFinTool : (finalizeEvents (runLoop requestId encode initStreamState chunks).1).filterMap
      toolStartIdx = [] := by
    unfold finalizeEvents
    rw [List.filterMap_eq_nil]
    intro e he
    rcases List.mem_append.mp he with hh | hh
    · rcases List.mem_append.mp hh with hh2 | hh2
      · cases h2 : (runLoop requestId encode initStreamState chunks).1.textBlockAnthropicIdx with
        | some i => rw [h2] at hh2; simp only [List.mem_singleton] at hh2; subst hh2; rfl
        | none => rw [h2] at hh2; cases hh2
      · rcases List.mem_map.mp hh2 with ⟨i, _, hi⟩; subst hi; rfl
    · simp only [List.mem_cons, List.mem_singleton] at hh
      rcases hh with hh | hh | hh
      · subst hh; rfl
      · subst hh; rfl
      · cases hh
  have hLtext : ((runLoop requestId encode initStreamState chunks).2).filterMap textStartIdx =
      optToList (runLoop requestId encode initStreamState chunks).1.textBlockAnthropicIdx := by
    rw [htextStarts]
    rfl
  simp only [List.filterMap_cons, stopIdx, textStartIdx, toolStartIdx, List.filterMap_append]
  rw [hLstops, hLtool, hLtext, hFin, hFinText, hFinTool]
  simp

/-- Counterexample to claim C3 as stated: with the OpenAI tool at index 1
becoming start-ready before the tool at index 0, the stops are emitted in
start-emission order [1, 0], not ascending index order — the JS `Set`
iterates in insertion order. -/
theorem stream_stop_order_counterexample :
    (handleAnthropicStreamingResponseFromOpenAIStream "r" "m" 5 (fun _ => 0)
        [⟨[(⟨"", [⟨0, "", "", ""⟩]⟩, "")]⟩,
         ⟨[(⟨"", [⟨1, "t1", "f", ""⟩]⟩, "")]⟩,
         ⟨[(⟨"", [⟨0, "t0", "g", ""⟩]⟩, "")]⟩]).filterMap stopIdx = [1, 0] ∧
    ¬ List.Pairwise (fun i j => i ≤ j)
      ((handleAnthropicStreamingResponseFromOpenAIStream "r" "m" 5 (fun _ => 0)
        [⟨[(⟨"", [⟨0, "", "", ""⟩]⟩, "")]⟩,
         ⟨[(⟨"", [⟨1, "t1", "f", ""⟩]⟩, "")]⟩,
         ⟨[(⟨"", [⟨0, "t0", "g", ""⟩]⟩, "")]⟩]).filterMap stopIdx) := by
  constructor
  · decide
  · decide


/-- `assocSet` stores the value at the key. -/
theorem assocSet_lookup_self (k : Nat) (v : ToolState) :
    ∀ l : List (Nat × ToolState), (assocSet k v l).lookup k = some v := by
  intro l
  induction l with
  | nil => simp [assocSet, List.lookup]
  | cons p rest ih =>
    rcases p with ⟨a, b⟩
    by_cases hk : a = k
    · subst hk
      simp [assocSet, List.lookup]
    · have hne : (k == a) = false := beq_eq_false_iff_ne.mpr (fun hc => hk hc.symm)
      simp only [assocSet, if_neg hk, List.lookup, hne]
      exact ih

/-- Appending the empty string is the identity. -/
theorem str_append_empty (s : String) : s ++ "" = s := by
  apply String.ext
  rw [String.data_append]
  simp

/-- Seeding never touches the sent-starts set. -/
theorem seedToolState_sent (requestId : String) (st : StreamState) (td : ToolCallDelta) :
    (seedToolState requestId st td).1.sentToolBlockStarts = st.sentToolBlockStarts := by
  cases hlk : st.openaiToolIdxToAnthropicBlockIdx.lookup td.index <;>
    simp [seedToolState, hlk]

/-- The updated tool state's buffer is the old buffer extended by exactly
this fragment. -/
theorem updatedToolState_buffer (td : ToolCallDelta) (ts0 : ToolState) :
    (updatedToolState td ts0).argumentsBuffer = ts0.argumentsBuffer ++ td.fargs := by
  unfold updatedToolState
  by_cases hf : td.fargs ≠ ""
  · rw [if_pos hf]
    by_cases h1 : td.id ≠ "" ∧ strStarts ts0.id "tool_ph_" = true <;>
      by_cases h2 : td.fname ≠ "" <;>
        simp [h1, h2]
  · rw [if_neg hf]
    push_neg at hf
    rw [hf, str_append_empty]
    by_cases h1 : td.id ≠ "" ∧ strStarts ts0.id "tool_ph_" = true <;>
      by_cases h2 : td.fname ≠ "" <;>
        simp [h1, h2]

/-- Claim C2: for a tool-call delta mapped to block index `a`, the
accumulated tool state stored afterwards is the old state updated by this
delta, with the arguments fragment appended to its buffer; the
`content_block_start` for `a` (with the accumulated id/name and empty input)
is emitted exactly when no start for `a` has been emitted before (the
sent-starts set tracks exactly the emitted starts, and the set is extended
at that moment, so over the whole stream the start fires exactly once, at
the first moment the state has a non-placeholder id and a non-empty name);
and an `input_json_delta` for `a` is emitted exactly when the delta carries
an arguments fragment and the start has been emitted by the time of the
delta check — in particular a fragment buffered before the start produces no
delta event. -/
theorem tool_block_start_and_delta_emission (requestId : String) (encode : String → Nat)
    (st : StreamState) (td : ToolCallDelta) :
    ((processToolDelta requestId encode st td).1.toolStates.lookup
        (seedToolState requestId st td).2) =
      some (updatedToolState td
        (((seedToolState requestId st td).1.toolStates.lookup
          (seedToolState requestId st td).2).getD ⟨"", "", ""⟩)) ∧
    (updatedToolState td
        (((seedToolState requestId st td).1.toolStates.lookup
          (seedToolState requestId st td).2).getD ⟨"", "", ""⟩)).argumentsBuffer =
      (((seedToolState requestId st td).1.toolStates.lookup
          (seedToolState requestId st td).2).getD ⟨"", "", ""⟩).argumentsBuffer ++ td.fargs ∧
    (Event.contentBlockStart (seedToolState requestId st td).2
        (.toolUse (updatedToolState td
            (((seedToolState requestId st td).1.toolStates.lookup
              (seedToolState requestId st td).2).getD ⟨"", "", ""⟩)).id
          (updatedToolState td
            (((seedToolState requestId st td).1.toolStates.lookup
              (seedToolState requestId st td).2).getD ⟨"", "", ""⟩)).name) ∈
        (processToolDelta requestId encode st td).2 ↔
      (st.sentToolBlockStarts.contains (seedToolState requestId st td).2 = false ∧
        toolStartReady (updatedToolState td
          (((seedToolState requestId st td).1.toolStates.lookup
            (seedToolState requestId st td).2).getD ⟨"", "", ""⟩)) = true)) ∧
    ((processToolDelta requestId encode st td).1.sentToolBlockStarts =
      if st.sentToolBlockStarts.contains (seedToolState requestId st td).2 = false ∧
          toolStartReady (updatedToolState td
            (((seedToolState requestId st td).1.toolStates.lookup
              (seedToolState requestId st td).2).getD ⟨"", "", ""⟩)) = true then
        st.sentToolBlockStarts ++ [(seedToolState requestId st td).2]
      else st.sentToolBlockStarts) ∧
    (∀ s : String,
      Event.contentBlockDelta (seedToolState requestId st td).2 (.inputJsonDelta s) ∈
          (processToolDelta requestId encode st td).2 ↔
        (s = td.fargs ∧ td.fargs ≠ "" ∧
          (processToolDelta requestId encode st td).1.sentToolBlockStarts.contains
            (seedToolState requestId st td).2 = true)) := by
  have hsent1 := seedToolState_sent requestId st td
  by_cases hsc : ((!((seedToolState requestId st td).1.sentToolBlockStarts.contains
      (seedToolState requestId st td).2)) &&
      toolStartReady (updatedToolState td
        (((seedToolState requestId st td).1.toolStates.lookup
          (seedToolState requestId st td).2).getD ⟨"", "", ""⟩))) = true
  · have heq : processToolDelta requestId encode st td =
        ({ (seedToolState requestId st td).1 with
            toolStates := assocSet (seedToolState requestId st td).2
              (updatedToolState td
                (((seedToolState requestId st td).1.toolStates.lookup
                  (seedToolState requestId st td).2).getD ⟨"", "", ""⟩))
              (seedToolState requestId st td).1.toolStates
            outputTokenCount := (seedToolState requestId st td).1.outputTokenCount +
              (if td.fargs ≠ "" then encode td.fargs else 0)
            sentToolBlockStarts := (seedToolState requestId st td).1.sentToolBlockStarts ++
              [(seedToolState requestId st td).2] },
          [Event.contentBlockStart (seedToolState requestId st td).2
            (.toolUse (updatedToolState td
                (((seedToolState requestId st td).1.toolStates.lookup
                  (seedToolState requestId st td).2).getD ⟨"", "", ""⟩)).id
              (updatedToolState td
                (((seedToolState requestId st td).1.toolStates.lookup
                  (seedToolState requestId st td).2).getD ⟨"", "", ""⟩)).name)] ++
          (if td.fargs ≠ "" ∧
              (((seedToolState requestId st td).1.sentToolBlockStarts ++
                [(seedToolState requestId st td).2]).contains
                (seedToolState requestId st td).2) = true then
            [Event.contentBlockDelta (seedToolState requestId st td).2
              (.inputJsonDelta td.fargs)]
          else [])) := by
      simp only [processToolDelta]
      rw [if_pos hsc, if_pos hsc]
    rcases andb_elim hsc with ⟨hnot, hready⟩
    have hcont : (seedToolState requestId st td).1.sentToolBlockStarts.contains
        (seedToolState requestId st td).2 = false := notb_elim hnot
    rw [hsent1] at hcont
    refine ⟨?_, updatedToolState_buffer td _, ?_, ?_, ?_⟩
    · rw [heq]
      exact assocSet_lookup_self _ _ _
    · rw [heq]
      constructor
      · intro _; exact ⟨hcont, hready⟩
      · intro _
        apply List.mem_append.mpr
        left
        simp
    · rw [heq]
      show (seedToolState requestId st td).1.sentToolBlockStarts ++ _ = _
      rw [hsent1, if_pos ⟨hcont, hready⟩]
    · intro s
      rw [heq]
      constructor
      · intro hmem
        rcases List.mem_append.mp hmem with hh | hh
        · simp only [List.mem_singleton] at hh
          cases hh
        · by_cases hde : td.fargs ≠ "" ∧
              (((seedToolState requestId st td).1.sentToolBlockStarts ++
                [(seedToolState requestId st td).2]).contains
                (seedToolState requestId st td).2) = true
          · rw [if_pos hde] at hh
            simp only [List.mem_singleton] at hh
            injection hh with h1 h2
            injection h2 with h3
            exact ⟨h3, hde.1, hde.2⟩
          · rw [if_neg hde] at hh
            cases hh
      · rintro ⟨hs, hf, hc⟩
        subst hs
        apply List.mem_append.mpr
        right
        rw [if_pos ⟨hf, hc⟩]
        simp
  · have heq : processToolDelta requestId encode st td =
        ({ (seedToolState requestId st td).1 with
            toolStates := assocSet (seedToolState requestId st td).2
              (updatedToolState td
                (((seedToolState requestId st td).1.toolStates.lookup
                  (seedToolState requestId st td).2).getD ⟨"", "", ""⟩))
              (seedToolState requestId st td).1.toolStates
            outputTokenCount := (seedToolState requestId st td).1.outputTokenCount +
              (if td.fargs ≠ "" then encode td.fargs else 0) },
          ([] : List Event) ++
          (if td.fargs ≠ "" ∧
              ((seedToolState requestId st td).1.sentToolBlockStarts.contains
                (seedToolState requestId st td).2) = true then
            [Event.contentBlockDelta (seedToolState requestId st td).2
              (.inputJsonDelta td.fargs)]
          else [])) := by
      simp only [processToolDelta]
      rw [if_neg hsc, if_neg hsc]
    have hsc2 : ¬(st.sentToolBlockStarts.contains (seedToolState requestId st td).2 = false ∧
        toolStartReady (updatedToolState td
          (((seedToolState requestId st td).1.toolStates.lookup
            (seedToolState requestId st td).2).getD ⟨"", "", ""⟩)) = true) := by
      rintro ⟨hc, hr⟩
      apply hsc
      rw [hsent1, hc, hr]
      rfl
    refine ⟨?_, updatedToolState_buffer td _, ?_, ?_, ?_⟩
    · rw [heq]
      exact assocSet_lookup_self _ _ _
    · rw [heq]
      constructor
      · intro hmem
        rw [List.nil_append] at hmem
        by_cases hde : td.fargs ≠ "" ∧
            ((seedToolState requestId st td).1.sentToolBlockStarts.contains
              (seedToolState requestId st td).2) = true
        · rw [if_pos hde] at hmem
          simp only [List.mem_singleton] at hmem
          cases hmem
        · rw [if_neg hde] at hmem
          cases hmem
      · intro hc
        exact absurd hc hsc2
    · rw [heq]
      show (seedToolState requestId st td).1.sentToolBlockStarts = _
      rw [hsent1, if_neg hsc2]
    · intro s
      rw [heq]
      rw [List.nil_append]
      constructor
      · intro hmem
        by_cases hde : td.fargs ≠ "" ∧
            ((seedToolState requestId st td).1.sentToolBlockStarts.contains
              (seedToolState requestId st td).2) = true
        · rw [if_pos hde] at hmem
          simp only [List.mem_singleton] at hmem
          injection hmem with h1 h2
          injection h2 with h3
          refine ⟨h3, hde.1, ?_⟩
          show (seedToolState requestId st td).1.sentToolBlockStarts.contains _ = true
          exact hde.2
        · rw [if_neg hde] at hmem
          cases hmem
      · rintro ⟨hs, hf, hc⟩
        subst hs
        have hc2 : ((seedToolState requestId st td).1.sentToolBlockStarts.contains
            (seedToolState requestId st td).2) = true := hc
        show Event.contentBlockDelta (seedToolState requestId st td).2
            (DeltaInfo.inputJsonDelta td.fargs) ∈
          (if td.fargs ≠ "" ∧
              ((seedToolState requestId st td).1.sentToolBlockStarts.contains
                (seedToolState requestId st td).2) = true then
            [Event.contentBlockDelta (seedToolState requestId st td).2
              (DeltaInfo.inputJsonDelta td.fargs)]
          else [])
        rw [if_pos ⟨hf, hc2⟩]
        simp


/-- Every start is a text start or a tool start, so the start counts add. -/
theorem count_start_eq_text_add_tool (evs : List Event) (i : Nat) :
    (evs.filterMap startIdx).count i =
      (evs.filterMap textStartIdx).count i + (evs.filterMap toolStartIdx).count i := by
  induction evs with
  | nil => rfl
  | cons e t ih =>
    cases e with
    | contentBlockStart j b =>
      cases b with
      | text =>
        show (j :: t.filterMap startIdx).count i =
          (j :: t.filterMap textStartIdx).count i + (t.filterMap toolStartIdx).count i
        rw [List.count_cons, List.count_cons, ih]
        omega
      | toolUse id name =>
        show (j :: t.filterMap startIdx).count i =
          (t.filterMap textStartIdx).count i + (j :: t.filterMap toolStartIdx).count i
        rw [List.count_cons, List.count_cons, ih]
        omega
    | messageStart m u => exact ih
    | ping => exact ih
    | contentBlockDelta j d => exact ih
    | contentBlockStop j => exact ih
    | messageDelta r u => exact ih
    | messageStop => exact ih

/-- Split a duplicate-free-style list at its unique occurrence of `i`. -/
theorem count_one_split {l : List Nat} {i : Nat} (h : l.count i = 1) :
    ∃ l1 l2, l = l1 ++ i :: l2 ∧ i ∉ l1 ∧ i ∉ l2 := by
  induction l with
  | nil => simp at h
  | cons a t ih =>
    by_cases ha : a = i
    · subst ha
      rw [List.count_cons_self] at h
      have h0 : t.count a = 0 := by omega
      exact ⟨[], t, rfl, by simp, List.count_eq_zero.mp h0⟩
    · rw [List.count_cons_of_ne (fun hc => ha hc.symm)] at h
      obtain ⟨l1, l2, he, h1, h2⟩ := ih h
      refine ⟨a :: l1, l2, by rw [he, List.cons_append], ?_, h2⟩
      intro hc
      rcases List.mem_cons.mp hc with hc | hc
      · exact ha hc.symm
      · exact h1 hc

/-- Split an event list at its unique start for index `i`. -/
theorem start_split (evs : List Event) (i : Nat)
    (h : (evs.filterMap startIdx).count i = 1) :
    ∃ l b r, evs = l ++ Event.contentBlockStart i b :: r ∧
      (∀ e ∈ l, startIdx e ≠ some i) ∧ (∀ e ∈ r, startIdx e ≠ some i) := by
  induction evs with
  | nil => simp at h
  | cons e t ih =>
    cases hse : startIdx e with
    | some j =>
      have hej : ∃ b, e = Event.contentBlockStart j b := by
        cases e <;> simp [startIdx] at hse
        case contentBlockStart k b =>
          exact ⟨b, by rw [hse]⟩
      obtain ⟨b, hb⟩ := hej
      by_cases hj : j = i
      · subst hj
        subst hb
        have h2 : (t.filterMap startIdx).count j = 0 := by
          have : ((j :: t.filterMap startIdx).count j) = 1 := h
          rw [List.count_cons_self] at this
          omega
        refine ⟨[], b, t, rfl, by simp, ?_⟩
        intro e2 he2 hc
        have : j ∈ t.filterMap startIdx := List.mem_filterMap.mpr ⟨e2, he2, hc⟩
        exact absurd this (List.count_eq_zero.mp h2)
      · subst hb
        have h2 : (t.filterMap startIdx).count i = 1 := by
          have : ((j :: t.filterMap startIdx).count i) = 1 := h
          rwa [List.count_cons_of_ne (fun hc => hj hc.symm)] at this
        obtain ⟨l, b2, r, he, hl, hr⟩ := ih h2
        refine ⟨Event.contentBlockStart j b :: l, b2, r, by rw [he, List.cons_append], ?_, hr⟩
        intro e2 he2
        rcases List.mem_cons.mp he2 with he3 | he3
        · subst he3
          simp [startIdx, hj]
        · exact hl e2 he3
    | none =>
      have h2 : (t.filterMap startIdx).count i = 1 := by
        have he : (e :: t).filterMap startIdx = t.filterMap startIdx := by
          rw [List.filterMap_cons_none hse]
        rwa [he] at h
      obtain ⟨l, b2, r, he, hl, hr⟩ := ih h2
      refine ⟨e :: l, b2, r, by rw [he, List.cons_append], ?_, hr⟩
      intro e2 he2
      rcases List.mem_cons.mp he2 with he3 | he3
      · subst he3
        rw [hse]
        intro hc
        cases hc
      · exact hl e2 he3

/-- In a delta-guarded list, a prefix with no start for `i` (starting from a
predicate false at `i`) contains no delta for `i` either. -/
theorem deltaOk_no_delta (l : List Event) :
    ∀ (f : Nat → Bool) (r : List Event) (i : Nat), deltaOk f (l ++ r) → f i = false →
      (∀ e ∈ l, startIdx e ≠ some i) → ∀ e ∈ l, deltaIdx e ≠ some i := by
  induction l with
  | nil => intro f r i _ _ _ e he; cases he
  | cons e t ih =>
    intro f r i hok hf hs e2 he2
    rcases List.mem_cons.mp he2 with he3 | he3
    · subst he3
      intro hc
      have := hok.1 i hc
      rw [hf] at this
      cases this
    · refine ih (addStart f e) r i hok.2 ?_ (fun e3 he3 => hs e3 (by simp [he3])) e2 he3
      unfold addStart
      rw [hf]
      have : (startIdx e == some i) = false := by
        have hne := hs e (by simp)
        exact beq_eq_false_iff_ne.mpr hne
      rw [this]
      rfl

/-- A delta for `i` in a delta-guarded list needs `i` started initially or a
start for `i` in the list. -/
theorem deltaOk_delta_start (l : List Event) :
    ∀ (f : Nat → Bool) (i : Nat), deltaOk f l → (∃ e ∈ l, deltaIdx e = some i) →
      f i = true ∨ ∃ e ∈ l, startIdx e = some i := by
  induction l with
  | nil => rintro f i _ ⟨e, he, _⟩; cases he
  | cons e t ih =>
    rintro f i hok ⟨e2, he2, hd⟩
    rcases List.mem_cons.mp he2 with he3 | he3
    · subst he3
      exact Or.inl (hok.1 i hd)
    · rcases ih (addStart f e) i hok.2 ⟨e2, he3, hd⟩ with hh | ⟨e3, he4, hs⟩
      · unfold addStart at hh
        rcases orb_elim hh with hh | hh
        · exact Or.inl hh
        · exact Or.inr ⟨e, by simp, beq_iff_eq.mp hh⟩
      · exact Or.inr ⟨e3, by simp [he4], hs⟩

/-- An event that mentions `i` but neither starts nor stops it is a delta
for `i`. -/
theorem mentions_delta_of {e : Event} {i : Nat} (hm : mentionsIdx i e = true)
    (hs : startIdx e ≠ some i) (hp : stopIdx e ≠ some i) : deltaIdx e = some i := by
  unfold mentionsIdx at hm
  rcases orb_elim hm with hh | hh
  · rcases orb_elim hh with hh2 | hh2
    · exact absurd (beq_iff_eq.mp hh2) hs
    · exact beq_iff_eq.mp hh2
  · exact absurd (beq_iff_eq.mp hh) hp

/-- An event that neither starts, deltas, nor stops `i` does not mention it. -/
theorem mentions_false {e : Event} {i : Nat} (h1 : startIdx e ≠ some i)
    (h2 : deltaIdx e ≠ some i) (h3 : stopIdx e ≠ some i) : mentionsIdx i e = false := by
  unfold mentionsIdx
  rw [beq_eq_false_iff_ne.mpr h1, beq_eq_false_iff_ne.mpr h2, beq_eq_false_iff_ne.mpr h3]
  rfl


/-- Claim C1: for every fragment sequence processed to completion, every
block index that appears in any emitted event has exactly one
`content_block_start`, which precedes every `content_block_delta` for that
index, and exactly one `content_block_stop`, which follows every delta for
that index and precedes `message_stop`: the event list decomposes around the
unique start and the unique stop for the index, with no other event
mentioning the index before the start or after the stop, and only deltas for
the index in between. -/
theorem stream_block_lifecycle (requestId originalAnthropicModelName : String)
    (estimatedInputTokens : Nat) (encode : String → Nat) (chunks : List Chunk) (i : Nat)
    (hused : ∃ e ∈ handleAnthropicStreamingResponseFromOpenAIStream requestId
        originalAnthropicModelName estimatedInputTokens encode chunks,
      mentionsIdx i e = true) :
    ∃ l b m r,
      handleAnthropicStreamingResponseFromOpenAIStream requestId
          originalAnthropicModelName estimatedInputTokens encode chunks =
        l ++ Event.contentBlockStart i b :: (m ++ Event.contentBlockStop i :: r) ∧
      (∀ e ∈ l, mentionsIdx i e = false) ∧
      (∀ e ∈ m, mentionsIdx i e = true → deltaIdx e = some i) ∧
      (∀ e ∈ r, mentionsIdx i e = false) ∧
      Event.messageStop ∈ r := by
  obtain ⟨hwf, hstep⟩ := runLoop_step requestId encode chunks initStreamState initStreamState_wf
  obtain ⟨hle, htext, ⟨ext, hsent, htool⟩, htextStarts, hkinds, hdelta⟩ := hstep
  have hHandle : handleAnthropicStreamingResponseFromOpenAIStream requestId
      originalAnthropicModelName estimatedInputTokens encode chunks =
      Event.messageStart originalAnthropicModelName estimatedInputTokens ::
        Event.ping :: ((runLoop requestId encode initStreamState chunks).2 ++
          finalizeEvents (runLoop requestId encode initStreamState chunks).1) := rfl
  have hfinEq : finalizeEvents (runLoop requestId encode initStreamState chunks).1 =
      ((optToList (runLoop requestId encode initStreamState chunks).1.textBlockAnthropicIdx ++
        (runLoop requestId encode initStreamState chunks).1.sentToolBlockStarts).map
          (fun j => Event.contentBlockStop j)) ++
        [Event.messageDelta
          (((runLoop requestId encode initStreamState chunks).1.finalAnthropicStopReason).getD
            StopReason.endTurn)
          (runLoop requestId encode initStreamState chunks).1.outputTokenCount,
         Event.messageStop] := by
    unfold finalizeEvents
    cases h2 : (runLoop requestId encode initStreamState chunks).1.textBlockAnthropicIdx <;>
      simp [optToList]
  have hsent2 : (runLoop requestId encode initStreamState chunks).1.sentToolBlockStarts = ext := by
    rw [hsent]
    rfl
  have htool2 : ((runLoop requestId encode initStreamState chunks).2).filterMap toolStartIdx =
      (runLoop requestId encode initStreamState chunks).1.sentToolBlockStarts := by
    rw [htool, hsent2]
  have htext2 : ((runLoop requestId encode initStreamState chunks).2).filterMap textStartIdx =
      optToList (runLoop requestId encode initStreamState chunks).1.textBlockAnthropicIdx := by
    rw [htextStarts]
    rfl
  have hdisj : ∀ j, (runLoop requestId encode initStreamState chunks).1.textBlockAnthropicIdx =
      some j → j ∉ (runLoop requestId encode initStreamState chunks).1.sentToolBlockStarts := by
    intro j hj hmem
    obtain ⟨w1, w2, w3, w4, w5, w6⟩ := hwf
    obtain ⟨p, hp, hpe⟩ := w6 j hmem
    exact w5 j hj p hp hpe
  have hinit : startedIn initStreamState i = false := rfl
  -- any index mentioned by a loop start is a started index
  have hstart_started : ∀ e ∈ (runLoop requestId encode initStreamState chunks).2,
      startIdx e = some i →
      startedIn (runLoop requestId encode initStreamState chunks).1 i = true := by
    intro e he hsi
    rcases startIdx_cases e i hsi with hh | hh
    · have : i ∈ ((runLoop requestId encode initStreamState chunks).2).filterMap textStartIdx :=
        List.mem_filterMap.mpr ⟨e, he, hh⟩
      rw [htext2] at this
      cases h3 : (runLoop requestId encode initStreamState chunks).1.textBlockAnthropicIdx with
      | none => rw [h3] at this; cases this
      | some j =>
        rw [h3] at this
        simp only [optToList, List.mem_singleton] at this
        subst this
        unfold startedIn
        rw [h3]
        exact orb_left (by simp)
    · have : i ∈ ((runLoop requestId encode initStreamState chunks).2).filterMap toolStartIdx :=
        List.mem_filterMap.mpr ⟨e, he, hh⟩
      rw [htool2] at this
      unfold startedIn
      exact orb_right (List.elem_eq_true_of_mem this)
  have hstarted : startedIn (runLoop requestId encode initStreamState chunks).1 i = true := by
    obtain ⟨e, he, hm⟩ := hused
    rw [hHandle] at he
    rcases List.mem_cons.mp he with he1 | he1
    · subst he1; cases hm
    rcases List.mem_cons.mp he1 with he2 | he2
    · subst he2; cases hm
    rcases List.mem_append.mp he2 with heL | heF
    · have hstop0 : stopIdx e = none := stopIdx_none_of_kind (hkinds e heL)
      by_cases hsi : startIdx e = some i
      · exact hstart_started e heL hsi
      · have hd : deltaIdx e = some i :=
          mentions_delta_of hm hsi (by rw [hstop0]; intro hc; cases hc)
        rcases deltaOk_delta_start _ _ i hdelta ⟨e, heL, hd⟩ with hh | ⟨e2, he3, hs3⟩
        · rw [hinit] at hh; cases hh
        · exact hstart_started e2 he3 hs3
    · rw [hfinEq] at heF
      rcases List.mem_append.mp heF with heS | heM
      · rcases List.mem_map.mp heS with ⟨j, hj, hje⟩
        subst hje
        have hji : j = i := by
          unfold mentionsIdx at hm
          rcases orb_elim hm with hh | hh
          · rcases orb_elim hh with hh2 | hh2
            · cases (beq_iff_eq.mp hh2)
            · cases (beq_iff_eq.mp hh2)
          · have := beq_iff_eq.mp hh
            injection this
        subst hji
        rcases List.mem_append.mp hj with hh | hh
        · cases h3 : (runLoop requestId encode initStreamState chunks).1.textBlockAnthropicIdx with
          | none => rw [h3] at hh; cases hh
          | some k =>
            rw [h3] at hh
            simp only [optToList, List.mem_singleton] at hh
            subst hh
            unfold startedIn
            rw [h3]
            exact orb_left (by simp)
        · unfold startedIn
          exact orb_right (List.elem_eq_true_of_mem hh)
      · simp only [List.mem_cons, List.mem_singleton] at heM
        rcases heM with heM | heM | heM
        · subst heM; cases hm
        · subst heM; cases hm
        · cases heM
  -- the combined stop-list count is one
  have hTC : (optToList
        (runLoop requestId encode initStreamState chunks).1.textBlockAnthropicIdx).count i +
      ((runLoop requestId encode initStreamState chunks).1.sentToolBlockStarts).count i = 1 := by
    unfold startedIn at hstarted
    rcases orb_elim hstarted with hh | hh
    · have h2 : (runLoop requestId encode initStreamState chunks).1.textBlockAnthropicIdx =
          some i := by
        cases h3 : (runLoop requestId encode initStreamState chunks).1.textBlockAnthropicIdx with
        | none => rw [h3] at hh; cases hh
        | some j =>
          rw [h3] at hh
          exact beq_iff_eq.mp hh
      rw [h2]
      rw [List.count_eq_zero_of_not_mem (hdisj i h2)]
      simp [optToList]
    · have hmem : i ∈ (runLoop requestId encode initStreamState chunks).1.sentToolBlockStarts :=
        List.mem_of_elem_eq_true hh
      rw [List.count_eq_one_of_mem hwf.1 hmem]
      have h2 : (optToList
          (runLoop requestId encode initStreamState chunks).1.textBlockAnthropicIdx).count i
          = 0 := by
        cases h3 : (runLoop requestId encode initStreamState chunks).1.textBlockAnthropicIdx with
        | none => rfl
        | some j =>
          have hji : j ≠ i := by
            intro hc
            subst hc
            exact hdisj j h3 hmem
          exact List.count_eq_zero_of_not_mem (by
            intro hc
            simp only [optToList, List.mem_singleton] at hc
            exact hji hc.symm)
      rw [h2]
  have hcount : (((runLoop requestId encode initStreamState chunks).2).filterMap
      startIdx).count i = 1 := by
    rw [count_start_eq_text_add_tool, htext2, htool2]
    exact hTC
  obtain ⟨l0, b, r0, hL, hl0, hr0⟩ :=
    start_split ((runLoop requestId encode initStreamState chunks).2) i hcount
  have hScount : ((optToList
      (runLoop requestId encode initStreamState chunks).1.textBlockAnthropicIdx ++
      (runLoop requestId encode initStreamState chunks).1.sentToolBlockStarts)).count i = 1 := by
    rw [List.count_append]
    exact hTC
  obtain ⟨A, B, hS, hA, hB⟩ := count_one_split hScount
  refine ⟨Event.messageStart originalAnthropicModelName estimatedInputTokens ::
      Event.ping :: l0, b,
    r0 ++ A.map (fun j => Event.contentBlockStop j),
    B.map (fun j => Event.contentBlockStop j) ++
      [Event.messageDelta
        (((runLoop requestId encode initStreamState chunks).1.finalAnthropicStopReason).getD
          StopReason.endTurn)
        (runLoop requestId encode initStreamState chunks).1.outputTokenCount,
       Event.messageStop], ?_, ?_, ?_, ?_, ?_⟩
  · rw [hHandle, hfinEq, hL, hS]
    simp [List.map_append, List.append_assoc]
  · intro e he
    rcases List.mem_cons.mp he with he1 | he1
    · subst he1; rfl
    rcases List.mem_cons.mp he1 with he2 | he2
    · subst he2; rfl
    have heL : e ∈ (runLoop requestId encode initStreamState chunks).2 := by
      rw [hL]
      exact List.mem_append_left _ he2
    have hstop0 : stopIdx e = none := stopIdx_none_of_kind (hkinds e heL)
    refine mentions_false (hl0 e he2) ?_ (by rw [hstop0]; intro hc; cases hc)
    have hdOk : deltaOk (startedIn initStreamState)
        (l0 ++ (Event.contentBlockStart i b :: r0)) := by
      rw [← hL]
      exact hdelta
    exact deltaOk_no_delta l0 (startedIn initStreamState)
      (Event.contentBlockStart i b :: r0) i hdOk hinit hl0 e he2
  · intro e he hm
    rcases List.mem_append.mp he with he1 | he1
    · have heL : e ∈ (runLoop requestId encode initStreamState chunks).2 := by
        rw [hL]
        exact List.mem_append_right _ (List.mem_cons_of_mem _ he1)
      have hstop0 : stopIdx e = none := stopIdx_none_of_kind (hkinds e heL)
      exact mentions_delta_of hm (hr0 e he1) (by rw [hstop0]; intro hc; cases hc)
    · rcases List.mem_map.mp he1 with ⟨j, hj, hje⟩
      subst hje
      have hji : j ≠ i := fun hc => hA (hc ▸ hj)
      have hfalse := mentions_false (e := Event.contentBlockStop j) (i := i)
        (by intro hc; cases hc) (by intro hc; cases hc)
        (by intro hc; injection hc with hc2; exact hji hc2)
      rw [hfalse] at hm
      cases hm
  · intro e he
    rcases List.mem_append.mp he with he1 | he1
    · rcases List.mem_map.mp he1 with ⟨j, hj, hje⟩
      subst hje
      have hji : j ≠ i := fun hc => hB (hc ▸ hj)
      exact mentions_false (by intro hc; cases hc) (by intro hc; cases hc)
        (by intro hc; injection hc with hc2; exact hji hc2)
    · simp only [List.mem_cons, List.mem_singleton] at he1
      rcases he1 with he1 | he1 | he1
      · subst he1; rfl
      · subst he1; rfl
      · cases he1
  · exact List.mem_append_right _ (by simp)


/-- Witness for the lifecycle theorem: a single content fragment stream uses
block index 0 and decomposes around its unique start and stop. -/
theorem stream_block_lifecycle_witness :
    (∃ e ∈ handleAnthropicStreamingResponseFromOpenAIStream "req" "model" 1
        (fun s => s.length) [⟨[(⟨"hi", []⟩, "")]⟩], mentionsIdx 0 e = true) ∧
    (∃ l b m r,
      handleAnthropicStreamingResponseFromOpenAIStream "req" "model" 1
          (fun s => s.length) [⟨[(⟨"hi", []⟩, "")]⟩] =
        l ++ Event.contentBlockStart 0 b :: (m ++ Event.contentBlockStop 0 :: r) ∧
      (∀ e ∈ l, mentionsIdx 0 e = false) ∧
      (∀ e ∈ m, mentionsIdx 0 e = true → deltaIdx e = some 0) ∧
      (∀ e ∈ r, mentionsIdx 0 e = false) ∧
      Event.messageStop ∈ r) :=
  ⟨by decide, stream_block_lifecycle "req" "model" 1 (fun s => s.length)
    [⟨[(⟨"hi", []⟩, "")]⟩] 0 (by decide)⟩

end AnthropicProxy
